import Mathlib

/-!
Verification of the arena-backed skiplist in `skl/skl_mmap.go`.

The Go source is shallowly embedded: keys are byte sequences (`List Nat`),
the arena's node storage is a `List Node` addressed by 32-bit offsets
(offset `o` is node `nodes[o-1]`, offset `0` is the null sentinel, the head
sentinel lives at offset `1`), and every loop of the source is a fuel-based
recursion returning `Option` (`none` marks fuel exhaustion or a fatal
`y.AssertTrue` failure; both are proved unreachable in well-formed states).
The constants `maxHeight` and `heightIncrease` and the arena byte-cursor
arithmetic come from files of the repository that are not part of the
sources given here; they are modelled from the specification and marked so.
-/

namespace Skl


/-- Byte-lexicographic three-way comparison, the embedding of Go
`bytes.Compare` as used on the key slices. -/
def cmpBytes : List Nat → List Nat → Ordering
  | [], [] => .eq
  | [], _ :: _ => .lt
  | _ :: _, [] => .gt
  | a :: as, b :: bs =>
    if a < b then .lt else if b < a then .gt else cmpBytes as bs

/-- Strict byte-lexicographic order on keys. -/
def ltKey (a b : List Nat) : Prop := cmpBytes a b = Ordering.lt

instance (a b : List Nat) : Decidable (ltKey a b) :=
  inferInstanceAs (Decidable (cmpBytes a b = Ordering.lt))

/-- A kernel-reducible decision procedure for `List.Chain`. -/
def decChain (r : Nat → Nat → Prop) (d : ∀ a b, Decidable (r a b)) :
    (a : Nat) → (l : List Nat) → Decidable (List.Chain r a l)
  | _, [] => isTrue List.Chain.nil
  | a, b :: l =>
    match d a b, decChain r d b l with
    | isTrue h1, isTrue h2 => isTrue (List.Chain.cons h1 h2)
    | isFalse h1, _ => isFalse (fun hc => h1 (List.chain_cons.mp hc).1)
    | _, isFalse h2 => isFalse (fun hc => h2 (List.chain_cons.mp hc).2)

instance (priority := 1001) (r : Nat → Nat → Prop) [i : DecidableRel r] (a : Nat)
    (l : List Nat) : Decidable (List.Chain r a l) :=
  decChain r (fun x y => i x y) a l

instance (priority := 1001) (r : Nat → Nat → Prop) [i : DecidableRel r] :
    (l : List Nat) → Decidable (List.Chain' r l)
  | [] => isTrue trivial
  | a :: l => decChain r (fun x y => i x y) a l

/-- Modelled from the spec: the constant `maxHeight` (`H_MAX`, default 20) is
declared in a file of the repository that is not among the given sources. -/
def maxHeight : Nat := 20

/-- Modelled from the spec: the fixed probability threshold `heightIncrease`
compared against a uniform 32-bit draw; its declaration is not among the given
sources. Its exact value is irrelevant to every claim below. -/
def heightIncrease : Nat := (2 ^ 32 - 1) / 3

/-- Loop of `SkiplistMmap.randomHeight`: `h := 1; for h < maxHeight &&
z.FastRand() <= heightIncrease { h++ }`. The random source is modelled as a
stream `draws`; draw number `i` is the one taken when `h = i + 1`. -/
def randomHeightAux (draws : Nat → Nat) : Nat → Nat → Nat
  | 0, h => h
  | fuel + 1, h =>
    if h < maxHeight ∧ draws (h - 1) ≤ heightIncrease then
      randomHeightAux draws fuel (h + 1)
    else h

/-- `SkiplistMmap.randomHeight`, with the RNG draws passed explicitly. -/
def randomHeight (draws : Nat → Nat) : Nat :=
  randomHeightAux draws maxHeight 1

/-- Go's built-in `copy(data[bp:], data[:bp])` on the two disjoint slices of
one backing array: `min (len - bp) bp` bytes of the prefix are copied to
positions starting at `bp`. -/
def copyWithin (d : List Nat) (bp : Nat) : List Nat :=
  (d.take bp ++ d.take bp ++ d.drop (2 * bp)).take d.length

/-- The doubling loop of `zeroOut`: `for bp := 1; bp < len(data); bp *= 2`. -/
def zeroOutLoop : Nat → List Nat → Nat → List Nat
  | 0, d, _ => d
  | fuel + 1, d, bp =>
    if bp < d.length then zeroOutLoop fuel (copyWithin d bp) (bp * 2) else d

/-- `zeroOut(data, offset)`: reslices to `data[offset:]`, writes `0x00` at
index 0 (a panic — modelled as `none` — when that slice is empty), then
doubles a zeroed prefix until it covers the slice. -/
def zeroOut (data : List Nat) (offset : Nat) : Option (List Nat) :=
  let d := data.drop offset
  if d.length = 0 then none
  else some (data.take offset ++ zeroOutLoop (d.length + 1) (d.set 0 0) 1)

/-- A `node` of the skiplist: key bytes (stored in the arena at `keyOffset`,
here inlined as the byte list), the 64-bit `value` word, the tower `height`,
and the tower of per-level next-offsets (`height` slots, zero-initialized by
`putNode`). -/
structure Node where
  key : List Nat
  value : Nat
  height : Nat
  tower : List Nat
deriving DecidableEq, Inhabited, Repr

/-- `SkiplistMmap`: the current height, the arena's nodes in allocation order
(the node at offset `o ≥ 1` is `nodes[o-1]`; offset `0` is null; the head
sentinel is at offset `1`), and the arena's byte cursor (`arena.size()`). -/
structure SkiplistMmap where
  height : Nat
  nodes : List Node
  cursor : Nat
deriving DecidableEq, Inhabited, Repr

/-- `arena.getNode(offset)`: `none` exactly for the null offset `0`. -/
def nodeAt? (s : SkiplistMmap) (o : Nat) : Option Node :=
  if o = 0 then none else s.nodes.get? (o - 1)

/-- Total view of the node at offset `o` (only read at valid offsets). -/
def nodeD (s : SkiplistMmap) (o : Nat) : Node :=
  ((nodeAt? s o).getD default)

/-- `node.keyMmap(arena)`, i.e. `arena.getKey(keyOffset, keySize)`. -/
def keyD (s : SkiplistMmap) (o : Nat) : List Nat := (nodeD s o).key

/-- `node.getValue()`. -/
def valueD (s : SkiplistMmap) (o : Nat) : Nat := (nodeD s o).value

def heightD (s : SkiplistMmap) (o : Nat) : Nat := (nodeD s o).height

/-- `node.getNextOffset(level)`: the tower slot at `level` (`0` when read out
of a node's allocated tower, which well-formedness rules out). -/
def towerD (s : SkiplistMmap) (o l : Nat) : Nat := (nodeD s o).tower.getD l 0

/-- Converts a `*node` to the `Option Nat` offset view: Go's `nil` node is
exactly the node at the null offset. -/
def offOpt (o : Nat) : Option Nat := if o = 0 then none else some o

/-- Writes tower slot `l` of the node at offset `o` (the store half of
`casNextOffset` and the plain store `x.tower[i] = nextOffset`). -/
def setTowerSlot (s : SkiplistMmap) (o l v : Nat) : SkiplistMmap :=
  if o = 0 then s
  else
    { s with nodes := match s.nodes.get? (o - 1) with
        | none => s.nodes
        | some nd => s.nodes.set (o - 1) { nd with tower := nd.tower.set l v } }

/-- Writes the value word of the node at offset `o` (the store
`prev[i].value = uid` on the overwrite paths of `Put`). -/
def setValue (s : SkiplistMmap) (o v : Nat) : SkiplistMmap :=
  if o = 0 then s
  else
    { s with nodes := match s.nodes.get? (o - 1) with
        | none => s.nodes
        | some nd => s.nodes.set (o - 1) { nd with value := v } }

/-- Modelled from the spec: arena byte accounting. `putNode(height)` reserves
`sizeof(header) + height * sizeof(uint32)` bytes aligned to 8 (header: 8-byte
value, 4-byte key offset, two 2-byte fields); the arena code is not among the
given sources. -/
def putNodeAdvance (height : Nat) : Nat := ((16 + 4 * height + 7) / 8) * 8

/-- `newNodeMmap`: reserve node space and key space in the arena, append the
node (tower zeroed by `putNode`, value set to `uid`). The new node's offset is
`s.nodes.length + 1`. -/
def addNode (s : SkiplistMmap) (key : List Nat) (uid height : Nat) : SkiplistMmap :=
  { s with
    nodes := s.nodes ++ [{ key := key, value := uid, height := height,
                           tower := List.replicate height 0 }],
    cursor := s.cursor + putNodeAdvance height + key.length }

/-- `NewSkiplistMmap(arenaSize)`: a fresh arena (cursor starts at 1, offset 0
being reserved for null) holding only the head sentinel of maximal height with
the empty key, list height 1, refcount 1 (refcounts are not modelled). -/
def NewSkiplistMmap : SkiplistMmap :=
  addNode { height := 1, nodes := [], cursor := 1 } [] 0 maxHeight

/-- `MemSize()`: the arena cursor. -/
def MemSize (s : SkiplistMmap) : Nat := s.cursor

/-- `findSpliceForLevel(key, before, level)`, fueled. Walks right at `level`
from `before` until the next key is `≥ key`; `(next, next)` on equality,
`(before, next)` otherwise, with offset `0` standing for a nil `next`.
`none` is fuel exhaustion or a dangling offset, both unreachable in
well-formed states. -/
def findSpliceForLevel (s : SkiplistMmap) (key : List Nat) :
    Nat → Nat → Nat → Option (Nat × Nat)
  | 0, _, _ => none
  | fuel + 1, before, level =>
    let next := towerD s before level
    if next = 0 then some (before, 0)
    else
      match nodeAt? s next with
      | none => none
      | some nnode =>
        match cmpBytes key nnode.key with
        | .eq => some (next, next)
        | .lt => some (before, next)
        | .gt => findSpliceForLevel s key fuel next level

/-- Fuel that always suffices for a single-level walk. -/
def spliceFuel (s : SkiplistMmap) : Nat := s.nodes.length + 1

/-- The loop body of `findNear(key, less, allowEqual)`, fueled; the walk state
is the current node offset `x` (head is offset 1) and the current level. -/
def findNearAux (s : SkiplistMmap) (key : List Nat) (less allowEqual : Bool) :
    Nat → Nat → Nat → Option (Option Nat × Bool)
  | 0, _, _ => none
  | fuel + 1, x, level =>
    let next := towerD s x level
    if next = 0 then
      if 0 < level then findNearAux s key less allowEqual fuel x (level - 1)
      else if !less then some (none, false)
      else if x = 1 then some (none, false)
      else some (some x, false)
    else
      match nodeAt? s next with
      | none => none
      | some nnode =>
        match cmpBytes key nnode.key with
        | .gt => findNearAux s key less allowEqual fuel next level
        | .eq =>
          if allowEqual then some (some next, true)
          else if !less then some (offOpt (towerD s next 0), false)
          else if 0 < level then findNearAux s key less allowEqual fuel x (level - 1)
          else if x = 1 then some (none, false)
          else some (some x, false)
        | .lt =>
          if 0 < level then findNearAux s key less allowEqual fuel x (level - 1)
          else if !less then some (some next, false)
          else if x = 1 then some (none, false)
          else some (some x, false)

/-- Fuel that always suffices for a `findNear` walk. -/
def nearFuel (s : SkiplistMmap) : Nat := s.height + s.nodes.length + 2

/-- `findNear(key, less, allowEqual)`: starts at the head, one level below the
current list height. -/
def findNear (s : SkiplistMmap) (key : List Nat) (less allowEqual : Bool) :
    Option (Option Nat × Bool) :=
  findNearAux s key less allowEqual (nearFuel s) 1 (s.height - 1)

/-- `findLast()`, fueled: keep the rightmost non-nil successor, descending a
level when there is none, never returning the head. -/
def findLastAux (s : SkiplistMmap) : Nat → Nat → Nat → Option (Option Nat)
  | 0, _, _ => none
  | fuel + 1, n, level =>
    let next := towerD s n level
    if next ≠ 0 then findLastAux s fuel next level
    else if level = 0 then some (if n = 1 then none else some n)
    else findLastAux s fuel n (level - 1)

def findLast (s : SkiplistMmap) : Option (Option Nat) :=
  findLastAux s (nearFuel s) 1 (s.height - 1)

/-- `Empty()`: whether `findLast` returns nil. -/
def Empty (s : SkiplistMmap) : Option Bool := (findLast s).map Option.isNone

/-- `Get(key)`: `findNear(key, less=false, allowEqual=true)`, then the value
if the found node's key is byte-equal to `key`, else the sentinel 0. -/
def Get (s : SkiplistMmap) (key : List Nat) : Option Nat :=
  match findNear s key false true with
  | none => none
  | some (none, _) => some 0
  | some (some o, _) => if keyD s o = key then some (valueD s o) else some 0

/-- The descending splice-computing loop of `Put` (levels `k-1` down to `0`,
starting from `prev[k] = head`): `.inl t` when some level finds
`prev[i] == next[i]` (the node `t` holding the key — the overwrite path),
otherwise `.inr splices` with the `(prev, next)` pair of each level `i < k`
at list position `i`. -/
def descend (s : SkiplistMmap) (key : List Nat) (fuel : Nat) :
    Nat → Nat → Option (Nat ⊕ List (Nat × Nat))
  | 0, _ => some (.inr [])
  | k + 1, before =>
    match findSpliceForLevel s key fuel before k with
    | none => none
    | some (p, n) =>
      if p = n then some (.inl p)
      else
        match descend s key fuel k p with
        | none => none
        | some (.inl t) => some (.inl t)
        | some (.inr rest) => some (.inr (rest ++ [(p, n)]))

/-- The `(prev[i], next[i])` pair the linking loop of `Put` starts from at
level `i`: the descent's splice for `i < listHeight`, the pre-seeded
`(head, nil)` at `i = listHeight`, and the still-nil `prev` above that. -/
def spliceAt (splices : List (Nat × Nat)) (listHeight i : Nat) : Option Nat × Nat :=
  if i < splices.length then
    ((splices.getD i (0, 0)).1, (splices.getD i (0, 0)).2) |>.map some id
  else if i = listHeight then (some 1, 0)
  else (none, 0)

/-- The per-level retry loop of `Put` (source lines 264–290): resolve a nil
`prev[i]` by re-searching from the head (with its two assertions, modelled as
`none`), write `x.tower[i]`, CAS `prev[i].tower[i]`, and on CAS failure
recompute the splice — switching to the value-overwrite path if the
recomputation finds the key (legal only at the base level). Returns the new
state and whether `Put` returned early through that overwrite path. -/
def putLevel (s0 : SkiplistMmap) (key : List Nat) (uid m i : Nat) :
    Nat → SkiplistMmap → Option Nat → Nat → Option (SkiplistMmap × Bool)
  | 0, _, _, _ => none
  | fuel + 1, s, prevI, nextI =>
    let pn? : Option (Nat × Nat) :=
      match prevI with
      | some p => some (p, nextI)
      | none =>
        if i ≤ 1 then none
        else
          match findSpliceForLevel s key (spliceFuel s0) 1 i with
          | none => none
          | some (p, n) => if p = n then none else some (p, n)
    match pn? with
    | none => none
    | some (p, n) =>
      let s1 := setTowerSlot s m i n
      if towerD s1 p i = n then some (setTowerSlot s1 p i m, false)
      else
        match findSpliceForLevel s1 key (spliceFuel s0) p i with
        | none => none
        | some (p2, n2) =>
          if p2 = n2 then
            if i = 0 then some (setValue s1 p2 uid, true) else none
          else putLevel s0 key uid m i fuel s1 (some p2) n2

/-- The linking loop of `Put` over levels `i = 0 .. h-1`. -/
def putLoop (s0 : SkiplistMmap) (key : List Nat) (uid m : Nat)
    (pn : Nat → Option Nat × Nat) : Nat → Nat → SkiplistMmap → Option SkiplistMmap
  | _, 0, s => some s
  | i, r + 1, s =>
    match putLevel s0 key uid m i (spliceFuel s0) s (pn i).1 (pn i).2 with
    | none => none
    | some (s', true) => some s'
    | some (s', false) => putLoop s0 key uid m pn (i + 1) r s'

/-- `Put(key, uid)`, sequentialized. The tower height that `randomHeight`
would draw is the explicit argument `h`; the height-raising CAS loop, which a
lone writer wins at once, is the `max`. `none` is an assertion failure or fuel
exhaustion, both proved unreachable from well-formed states. -/
def Put (s : SkiplistMmap) (key : List Nat) (uid h : Nat) : Option SkiplistMmap :=
  let listHeight := s.height
  match descend s key (spliceFuel s) listHeight 1 with
  | none => none
  | some (.inl t) => some (setValue s t uid)
  | some (.inr splices) =>
    let m := s.nodes.length + 1
    let s1 := addNode s key uid h
    let s2 := { s1 with height := max s1.height h }
    putLoop s key uid m (spliceAt splices listHeight) 0 h s2

/-- A sequence of sequential `Put` calls. Each element is `(key, uid, h)`
with `h` the height `randomHeight` drew for that call. -/
def applyPuts (s : SkiplistMmap) : List (List Nat × Nat × Nat) → Option SkiplistMmap
  | [] => some s
  | (k, v, h) :: rest =>
    match Put s k v h with
    | none => none
    | some s' => applyPuts s' rest

/-- An `IteratorMmap`: the current node, `none` when invalid. The list it
iterates is passed to each operation. -/
structure IteratorMmap where
  n : Option Nat
deriving DecidableEq, Inhabited, Repr

/-- `Valid()`. -/
def IterValid (it : IteratorMmap) : Bool := it.n.isSome

/-- `Key()`: undefined (`none`) on an invalid iterator. -/
def IterKey (s : SkiplistMmap) (it : IteratorMmap) : Option (List Nat) :=
  it.n.map (keyD s)

/-- `Value()`: undefined (`none`) on an invalid iterator. -/
def IterValue (s : SkiplistMmap) (it : IteratorMmap) : Option Nat :=
  it.n.map (valueD s)

/-- `Next()`: asserts `Valid()` (fatal, `none`, when the iterator is invalid)
and follows the level-0 link. -/
def IterNext (s : SkiplistMmap) (it : IteratorMmap) : Option IteratorMmap :=
  match it.n with
  | none => none
  | some o => some ⟨offOpt (towerD s o 0)⟩

/-- `Prev()`: asserts `Valid()` and searches for the rightmost strictly
smaller key. -/
def IterPrev (s : SkiplistMmap) (it : IteratorMmap) : Option IteratorMmap :=
  match it.n with
  | none => none
  | some o => (findNear s (keyD s o) true false).map (fun r => ⟨r.1⟩)

/-- `Seek(target)`: `findNear(target, less=false, allowEqual=true)`. Legal on
an invalid iterator (the old position, passed for fidelity, is unused). -/
def IterSeek (s : SkiplistMmap) (_it : IteratorMmap) (target : List Nat) :
    Option IteratorMmap :=
  (findNear s target false true).map (fun r => ⟨r.1⟩)

/-- `SeekForPrev(target)`: `findNear(target, less=true, allowEqual=true)`. -/
def IterSeekForPrev (s : SkiplistMmap) (_it : IteratorMmap) (target : List Nat) :
    Option IteratorMmap :=
  (findNear s target true true).map (fun r => ⟨r.1⟩)

/-- `SeekToFirst()`: the head's level-0 successor. -/
def IterSeekToFirst (s : SkiplistMmap) (_it : IteratorMmap) : IteratorMmap :=
  ⟨offOpt (towerD s 1 0)⟩

/-- `SeekToLast()`: `findLast()`. -/
def IterSeekToLast (s : SkiplistMmap) (_it : IteratorMmap) : Option IteratorMmap :=
  (findLast s).map (fun o => ⟨o⟩)

/-- The kind of machine store an assignment to a node's value word performs. -/
inductive StoreKind where
  | atomicStore
  | plainStore
deriving DecidableEq, Repr

/-- The kind of store `Put(key, ·)` would use to write the value word on its
overwrite path. Source line 242 is the plain field assignment
`prev[i].value = uid`; the call to the atomic `setValue` is present only as a
comment. `none` when `Put` would take the insert path instead. -/
def putValueStoreKind (s : SkiplistMmap) (key : List Nat) : Option StoreKind :=
  match descend s key (spliceFuel s) s.height 1 with
  | some (.inl _) => some .plainStore
  | _ => none

/-! ### The well-formedness invariant -/

/-- `chainSeg s l off lst out`: starting from offset `off`, following tower
slot `l` visits exactly the offsets of `lst` and then reaches `out`. -/
def chainSeg (s : SkiplistMmap) (l : Nat) : Nat → List Nat → Nat → Bool
  | off, [], out => off == out
  | off, a :: rest, out => off == a && chainSeg s l (towerD s a l) rest out

/-- The fueled walk along tower slot `l` from an offset, collecting offsets
until the null offset. -/
def chainWalk (s : SkiplistMmap) (l : Nat) : Nat → Nat → List Nat
  | 0, _ => []
  | fuel + 1, off =>
    if off = 0 then [] else off :: chainWalk s l fuel (towerD s off l)

/-- The level-0 chain of the list: every non-head node, in key order. -/
def baseChain (s : SkiplistMmap) : List Nat :=
  chainWalk s 0 (s.nodes.length + 1) (towerD s 1 0)

/-- The offsets of the non-head nodes: `2 .. s.nodes.length`. -/
def offsets (s : SkiplistMmap) : List Nat := List.range' 2 (s.nodes.length - 1)

/-- Well-formedness of a (sequentially reachable) skiplist state: the head
sentinel is at offset 1 with the empty key and maximal height; the list
height is within bounds and dominates every node height; every non-head node
has an exactly-allocated tower; the level-0 chain is strictly key-sorted and
visits exactly the non-head nodes; and for every level `l` the level-`l`
chain from the head is exactly the level-0 chain restricted to the nodes
whose towers reach level `l`. -/
def WF (s : SkiplistMmap) : Prop :=
  0 < s.nodes.length ∧
  keyD s 1 = [] ∧ heightD s 1 = maxHeight ∧ (nodeD s 1).tower.length = maxHeight ∧
  1 ≤ s.height ∧ s.height ≤ maxHeight ∧
  (∀ o ∈ offsets s,
    1 ≤ heightD s o ∧ heightD s o ≤ s.height ∧
    (nodeD s o).tower.length = heightD s o) ∧
  List.Chain' (fun a b => ltKey (keyD s a) (keyD s b)) (baseChain s) ∧
  (∀ o ∈ baseChain s, o ∈ offsets s) ∧
  (∀ o ∈ offsets s, o ∈ baseChain s) ∧
  (∀ l ∈ List.range maxHeight,
    chainSeg s l (towerD s 1 l)
      ((baseChain s).filter (fun o => decide (l < heightD s o))) 0 = true)

instance (s : SkiplistMmap) : Decidable (WF s) :=
  inferInstanceAs (Decidable (_ ∧ _))

/-- The association list a well-formed skiplist represents, in key order. -/
def model (s : SkiplistMmap) : List (List Nat × Nat) :=
  (baseChain s).map (fun o => (keyD s o, valueD s o))

/-- First-match association lookup. -/
def lookupA : List (List Nat × Nat) → List Nat → Option Nat
  | [], _ => none
  | (k, v) :: rest, key => if k = key then some v else lookupA rest key

/-! ### The single-level walk -/

/-- The last element of a list, or a default. -/
def lastD : List Nat → Nat → Nat
  | [], d => d
  | a :: l, _ => lastD l a

/-- What a level walk computes, as a pure list function: skip the strictly
smaller keys, stop at the first key `≥ key`. -/
def sspec (keyOf : Nat → List Nat) (key : List Nat) : Nat → List Nat → Nat × Nat
  | b, [] => (b, 0)
  | b, a :: rest =>
    match cmpBytes key (keyOf a) with
    | .eq => (a, a)
    | .lt => (b, a)
    | .gt => sspec keyOf key a rest

/-! ### Splitting the base chain at a search key -/

/-- The nodes whose keys are strictly below `key` (a prefix of the sorted
base chain). -/
def preKeys (s : SkiplistMmap) (key : List Nat) : List Nat :=
  (baseChain s).takeWhile (fun o => decide (ltKey (keyD s o) key))

/-- The nodes whose keys are `≥ key` (the matching suffix). -/
def sufKeys (s : SkiplistMmap) (key : List Nat) : List Nat :=
  (baseChain s).dropWhile (fun o => decide (ltKey (keyD s o) key))

/-- The splice `Put`'s descent computes for level `i` when the key is absent. -/
def spliceSpecAt (s : SkiplistMmap) (key : List Nat) (i : Nat) : Nat × Nat :=
  (lastD ((preKeys s key).filter (fun o => decide (i < heightD s o))) 1,
   ((sufKeys s key).filter (fun o => decide (i < heightD s o))).headD 0)

def splicesSpec (s : SkiplistMmap) (key : List Nat) (k : Nat) : List (Nat × Nat) :=
  (List.range k).map (spliceSpecAt s key)

/-! ### The findNear characterization -/

/-- The last element as an option, with the head sentinel mapped to `none`
(`findNear` never returns the head). -/
def lastOpt (L : List Nat) : Option Nat :=
  if L = [] then none else some (lastD L 1)

/-- What `findNear(key, less, allowEqual)` returns, over the sorted chain:
first `≥`, first `>`, last `≤`, or last `<`, with the equality flag. -/
def nearSpec (s : SkiplistMmap) (key : List Nat) (less allowEqual : Bool) :
    Option Nat × Bool :=
  match less, allowEqual with
  | false, true =>
    match (sufKeys s key).head? with
    | none => (none, false)
    | some a => (some a, decide (keyD s a = key))
  | false, false =>
    match (sufKeys s key).head? with
    | none => (none, false)
    | some a =>
      if keyD s a = key then ((sufKeys s key).tail.head?, false)
      else (some a, false)
  | true, true =>
    match (sufKeys s key).head? with
    | none => (lastOpt (preKeys s key), false)
    | some a =>
      if keyD s a = key then (some a, true) else (lastOpt (preKeys s key), false)
  | true, false => (lastOpt (preKeys s key), false)

/-- The state of `Put`'s insert path after linking levels `0 .. j-1` of the
new node (offset `s.nodes.length + 1`). -/
def linkState (s : SkiplistMmap) (key : List Nat) (v h : Nat) : Nat → SkiplistMmap
  | 0 => { addNode s key v h with height := max s.height h }
  | j + 1 =>
    setTowerSlot
      (setTowerSlot (linkState s key v h j) (s.nodes.length + 1) j
        (spliceSpecAt s key j).2)
      (spliceSpecAt s key j).1 j (s.nodes.length + 1)

/-! ### Sequential composition of Puts -/

/-- The value of the last `Put` with key `k` among the sequence `ps`
(earliest put first). -/
def lastPutVal : List (List Nat × Nat × Nat) → List Nat → Option Nat
  | [], _ => none
  | p :: ps, k =>
    match lastPutVal ps k with
    | some v => some v
    | none => if p.1 = k then some p.2.1 else none

/-- The keys an iterator visits from its current position by repeated
`Next()` until it becomes invalid; `none` on fuel exhaustion or a fatal
assertion. -/
def iterTraceAux (s : SkiplistMmap) : Nat → IteratorMmap → Option (List (List Nat))
  | 0, _ => none
  | fuel + 1, it =>
    match it.n with
    | none => some []
    | some o =>
      match IterNext s it with
      | none => none
      | some it2 => (iterTraceAux s fuel it2).map (fun L => keyD s o :: L)

/-- The full forward iteration: `SeekToFirst()` then `Next()` to the end. -/
def iterTrace (s : SkiplistMmap) : Option (List (List Nat)) :=
  iterTraceAux s (s.nodes.length + 1) (IterSeekToFirst s ⟨none⟩)

/-- A small concrete list holding keys `[97]` and `[98]`, used to
instantiate theorems at a concrete input. -/
def exampleList : SkiplistMmap :=
  (applyPuts NewSkiplistMmap [([97], 5, 1), ([98], 6, 2)]).getD NewSkiplistMmap

/-! ### Theorems -/

theorem cmpBytes_self (a : List Nat) : cmpBytes a a = Ordering.eq := by
  induction a with
  | nil => rfl
  | cons x xs ih => simp [cmpBytes, ih]

theorem cmpBytes_eq_iff {a b : List Nat} : cmpBytes a b = Ordering.eq ↔ a = b := by
  constructor
  · intro h
    induction a generalizing b with
    | nil => cases b with
      | nil => rfl
      | cons y ys => simp [cmpBytes] at h
    | cons x xs ih =>
      cases b with
      | nil => simp [cmpBytes] at h
      | cons y ys =>
        by_cases hxy : x < y
        · simp [cmpBytes, hxy] at h
        · by_cases hyx : y < x
          · simp [cmpBytes, hxy, hyx] at h
          · have hx : x = y := Nat.le_antisymm (Nat.le_of_not_lt hyx) (Nat.le_of_not_lt hxy)
            simp [cmpBytes, hxy, hyx] at h
            simp [hx, ih h]
  · rintro rfl; exact cmpBytes_self a

theorem cmpBytes_lt_iff_gt {a b : List Nat} :
    cmpBytes a b = Ordering.lt ↔ cmpBytes b a = Ordering.gt := by
  induction a generalizing b with
  | nil => cases b <;> simp [cmpBytes]
  | cons x xs ih =>
    cases b with
    | nil => simp [cmpBytes]
    | cons y ys =>
      by_cases hxy : x < y
      · have : ¬ y < x := Nat.lt_asymm hxy
        simp [cmpBytes, hxy, this]
      · by_cases hyx : y < x
        · simp [cmpBytes, hxy, hyx]
        · simp [cmpBytes, hxy, hyx, ih]

theorem ltKey_irrefl (a : List Nat) : ¬ ltKey a a := by
  simp [ltKey, cmpBytes_self]

theorem ltKey_asymm {a b : List Nat} (h : ltKey a b) : ¬ ltKey b a := by
  intro h2
  have := cmpBytes_lt_iff_gt.mp h2
  rw [ltKey] at h
  rw [h] at this
  cases this

theorem ltKey_trans {a b c : List Nat} (h1 : ltKey a b) (h2 : ltKey b c) : ltKey a c := by
  unfold ltKey at *
  induction a generalizing b c with
  | nil =>
    cases c with
    | nil =>
      cases b with
      | nil => exact h1
      | cons y ys => simp [cmpBytes] at h2
    | cons z zs => rfl
  | cons x xs ih =>
    cases b with
    | nil => simp [cmpBytes] at h1
    | cons y ys =>
      cases c with
      | nil => simp [cmpBytes] at h2
      | cons z zs =>
        by_cases hxy : x < y
        · -- x < y and y ≤ z gives x < z
          by_cases hyz : y < z
          · have : x < z := Nat.lt_trans hxy hyz
            simp [cmpBytes, this]
          · by_cases hzy : z < y
            · simp [cmpBytes, hyz, hzy] at h2
            · have hyz' : y = z := Nat.le_antisymm (Nat.le_of_not_lt hzy) (Nat.le_of_not_lt hyz)
              subst hyz'
              simp [cmpBytes, hxy]
        · by_cases hyx : y < x
          · simp [cmpBytes, hxy, hyx] at h1
          · have hxy' : x = y := Nat.le_antisymm (Nat.le_of_not_lt hyx) (Nat.le_of_not_lt hxy)
            subst hxy'
            simp [cmpBytes, hxy] at h1
            by_cases hyz : x < z
            · simp [cmpBytes, hyz]
            · by_cases hzy : z < x
              · simp [cmpBytes, hyz, hzy] at h2
              · have : x = z := Nat.le_antisymm (Nat.le_of_not_lt hzy) (Nat.le_of_not_lt hyz)
                subst this
                simp [cmpBytes, hyz]
                simp [cmpBytes, hyz] at h2
                exact ih h1 h2

theorem ltKey_trichotomy (a b : List Nat) : ltKey a b ∨ a = b ∨ ltKey b a := by
  rcases h : cmpBytes a b with _ | _ | _
  · exact Or.inl h
  · exact Or.inr (Or.inl (cmpBytes_eq_iff.mp h))
  · exact Or.inr (Or.inr (cmpBytes_lt_iff_gt.mpr h))

theorem ltKey_of_ne_of_not_lt {a b : List Nat} (hne : a ≠ b) (h : ¬ ltKey a b) :
    ltKey b a := by
  rcases ltKey_trichotomy a b with h1 | h1 | h1
  · exact absurd h1 h
  · exact absurd h1 hne
  · exact h1

theorem ltKey_ne {a b : List Nat} (h : ltKey a b) : a ≠ b := by
  rintro rfl; exact ltKey_irrefl a h

/-- The empty key is minimal: nothing is strictly below it. -/
theorem not_ltKey_nil (a : List Nat) : ¬ ltKey a [] := by
  cases a <;> simp [ltKey, cmpBytes]

theorem randomHeightAux_bounds (draws : Nat → Nat) (fuel h : Nat)
    (h1 : 1 ≤ h) (h2 : h ≤ maxHeight) :
    1 ≤ randomHeightAux draws fuel h ∧ randomHeightAux draws fuel h ≤ maxHeight := by
  induction fuel generalizing h with
  | zero => exact ⟨h1, h2⟩
  | succ n ih =>
    unfold randomHeightAux
    by_cases hc : h < maxHeight ∧ draws (h - 1) ≤ heightIncrease
    · simp only [hc, if_true]
      exact ih (h + 1) (Nat.le_succ_of_le h1) hc.1
    · simp only [hc, if_false]
      exact ⟨h1, h2⟩

/-! ### Frame lemmas for the state updates -/

theorem getD_set (l : List Nat) (i j v d : Nat) :
    (l.set i v).getD j d = if i = j ∧ i < l.length then v else l.getD j d := by
  by_cases hij : i = j
  · subst hij
    by_cases hi : i < l.length
    · simp [List.getD_eq_getElem?_getD, List.getElem?_set_self hi, hi]
    · have : l.set i v = l := List.set_eq_of_length_le (Nat.le_of_not_lt hi)
      simp [this, hi]
  · simp [List.getD_eq_getElem?_getD, List.getElem?_set_ne hij, hij]

theorem mem_offsets {s : SkiplistMmap} {o : Nat} :
    o ∈ offsets s ↔ 2 ≤ o ∧ o ≤ s.nodes.length := by
  unfold offsets
  rw [List.mem_range']
  constructor
  · rintro ⟨i, hi, rfl⟩
    refine ⟨Nat.le_add_right 2 _, ?_⟩
    omega
  · rintro ⟨h2, hN⟩
    exact ⟨o - 2, by omega, by omega⟩

theorem nodes_setValue_get? (s : SkiplistMmap) (o v j : Nat) :
    (setValue s o v).nodes.get? j =
      if j = o - 1 ∧ o ≠ 0 then (s.nodes.get? j).map (fun nd => { nd with value := v })
      else s.nodes.get? j := by
  unfold setValue
  by_cases h0 : o = 0
  · simp [h0]
  · simp only [if_neg h0]
    cases hg : s.nodes.get? (o - 1) with
    | none =>
      by_cases hj : j = o - 1
      · subst hj
        rw [List.get?_eq_getElem?] at hg
        simp [hg, h0, List.get?_eq_getElem?]
      · simp [hj]
    | some nd =>
      have hlt : o - 1 < s.nodes.length := by
        by_contra hge
        rw [List.get?_eq_getElem?, List.getElem?_eq_none (Nat.le_of_not_lt hge)] at hg
        cases hg
      by_cases hj : j = o - 1
      · subst hj
        simp only [h0, and_true, if_pos rfl, ne_eq, not_false_eq_true]
        simp [List.get?_eq_getElem?, List.getElem?_set_self hlt,
          List.get?_eq_getElem? (l := s.nodes)] at hg ⊢
        simp [hg]
      · simp only [hj, false_and, if_neg, ite_false]
        simp [List.get?_eq_getElem?, List.getElem?_set_ne (Ne.symm hj)]

theorem nodeAt?_setValue (s : SkiplistMmap) (o v o' : Nat) :
    nodeAt? (setValue s o v) o' =
      if o' = o ∧ o ≠ 0 then (nodeAt? s o').map (fun nd => { nd with value := v })
      else nodeAt? s o' := by
  unfold nodeAt?
  by_cases h0' : o' = 0
  · subst h0'
    by_cases h0 : o = 0 <;> simp [h0]
  · simp only [if_neg h0', nodes_setValue_get?]
    by_cases h0 : o = 0
    · simp [h0]
    · by_cases ho : o' = o
      · subst ho; simp [h0]
      · have : ¬ (o' - 1 = o - 1) := by omega
        simp [this, ho, h0]

theorem nodes_setTowerSlot_get? (s : SkiplistMmap) (o l v j : Nat) :
    (setTowerSlot s o l v).nodes.get? j =
      if j = o - 1 ∧ o ≠ 0 then
        (s.nodes.get? j).map (fun nd => { nd with tower := nd.tower.set l v })
      else s.nodes.get? j := by
  unfold setTowerSlot
  by_cases h0 : o = 0
  · simp [h0]
  · simp only [if_neg h0]
    cases hg : s.nodes.get? (o - 1) with
    | none =>
      by_cases hj : j = o - 1
      · subst hj
        rw [List.get?_eq_getElem?] at hg
        simp [hg, h0, List.get?_eq_getElem?]
      · simp [hj]
    | some nd =>
      have hlt : o - 1 < s.nodes.length := by
        by_contra hge
        rw [List.get?_eq_getElem?, List.getElem?_eq_none (Nat.le_of_not_lt hge)] at hg
        cases hg
      by_cases hj : j = o - 1
      · subst hj
        simp only [h0, and_true, if_pos rfl, ne_eq, not_false_eq_true]
        simp [List.get?_eq_getElem?, List.getElem?_set_self hlt,
          List.get?_eq_getElem? (l := s.nodes)] at hg ⊢
        simp [hg]
      · simp only [hj, false_and, if_neg, ite_false]
        simp [List.get?_eq_getElem?, List.getElem?_set_ne (Ne.symm hj)]

theorem nodeAt?_setTowerSlot (s : SkiplistMmap) (o l v o' : Nat) :
    nodeAt? (setTowerSlot s o l v) o' =
      if o' = o ∧ o ≠ 0 then
        (nodeAt? s o').map (fun nd => { nd with tower := nd.tower.set l v })
      else nodeAt? s o' := by
  unfold nodeAt?
  by_cases h0' : o' = 0
  · subst h0'
    by_cases h0 : o = 0 <;> simp [h0]
  · simp only [if_neg h0', nodes_setTowerSlot_get?]
    by_cases h0 : o = 0
    · simp [h0]
    · by_cases ho : o' = o
      · subst ho; simp [h0]
      · have : ¬ (o' - 1 = o - 1) := by omega
        simp [this, ho, h0]

theorem nodeAt?_addNode (s : SkiplistMmap) (k : List Nat) (v h o' : Nat) :
    nodeAt? (addNode s k v h) o' =
      if o' = s.nodes.length + 1 then
        some { key := k, value := v, height := h, tower := List.replicate h 0 }
      else nodeAt? s o' := by
  unfold addNode nodeAt?
  by_cases h0' : o' = 0
  · subst h0'; simp
  · simp only [if_neg h0']
    by_cases hm : o' = s.nodes.length + 1
    · subst hm
      rw [List.get?_eq_getElem?]
      rw [List.getElem?_append_right (by omega)]
      simp
    · simp only [if_neg hm]
      by_cases hle : o' - 1 < s.nodes.length
      · simp [List.get?_eq_getElem?]
        rw [List.getElem?_append_left hle]
      · have h1 : s.nodes.length ≤ o' - 1 := Nat.le_of_not_lt hle
        have h2 : s.nodes.length + 1 ≤ o' - 1 := by omega
        simp [List.get?_eq_getElem?]
        rw [List.getElem?_append_right h1]
        rw [List.getElem?_eq_none (by simp; omega), List.getElem?_eq_none (by omega)]

/-- The record-field effects of the three state updates. -/
theorem setValue_height (s : SkiplistMmap) (o v : Nat) :
    (setValue s o v).height = s.height := by
  unfold setValue; split <;> simp

theorem setValue_cursor (s : SkiplistMmap) (o v : Nat) :
    (setValue s o v).cursor = s.cursor := by
  unfold setValue; split <;> simp

theorem setValue_length (s : SkiplistMmap) (o v : Nat) :
    (setValue s o v).nodes.length = s.nodes.length := by
  unfold setValue; split
  · rfl
  · split <;> simp

theorem setTowerSlot_height (s : SkiplistMmap) (o l v : Nat) :
    (setTowerSlot s o l v).height = s.height := by
  unfold setTowerSlot; split <;> simp

theorem setTowerSlot_cursor (s : SkiplistMmap) (o l v : Nat) :
    (setTowerSlot s o l v).cursor = s.cursor := by
  unfold setTowerSlot; split <;> simp

theorem setTowerSlot_length (s : SkiplistMmap) (o l v : Nat) :
    (setTowerSlot s o l v).nodes.length = s.nodes.length := by
  unfold setTowerSlot; split
  · rfl
  · split <;> simp

theorem addNode_height (s : SkiplistMmap) (k : List Nat) (v h : Nat) :
    (addNode s k v h).height = s.height := rfl

theorem addNode_length (s : SkiplistMmap) (k : List Nat) (v h : Nat) :
    (addNode s k v h).nodes.length = s.nodes.length + 1 := by
  unfold addNode; simp

/-- Field views through `setValue`: only the value word changes. -/
theorem keyD_setValue (s : SkiplistMmap) (o v o' : Nat) :
    keyD (setValue s o v) o' = keyD s o' := by
  unfold keyD nodeD
  rw [nodeAt?_setValue]
  split
  · cases nodeAt? s o' <;> rfl
  · rfl

theorem heightD_setValue (s : SkiplistMmap) (o v o' : Nat) :
    heightD (setValue s o v) o' = heightD s o' := by
  unfold heightD nodeD
  rw [nodeAt?_setValue]
  split
  · cases nodeAt? s o' <;> rfl
  · rfl

theorem towerD_setValue (s : SkiplistMmap) (o v o' l : Nat) :
    towerD (setValue s o v) o' l = towerD s o' l := by
  unfold towerD nodeD
  rw [nodeAt?_setValue]
  split
  · cases nodeAt? s o' <;> rfl
  · rfl

theorem towerLen_setValue (s : SkiplistMmap) (o v o' : Nat) :
    (nodeD (setValue s o v) o').tower.length = (nodeD s o').tower.length := by
  unfold nodeD
  rw [nodeAt?_setValue]
  split
  · cases nodeAt? s o' <;> rfl
  · rfl

/-- Field views through `setTowerSlot`: keys, values, heights unchanged. -/
theorem keyD_setTowerSlot (s : SkiplistMmap) (o l v o' : Nat) :
    keyD (setTowerSlot s o l v) o' = keyD s o' := by
  unfold keyD nodeD
  rw [nodeAt?_setTowerSlot]
  split
  · cases nodeAt? s o' <;> rfl
  · rfl

theorem valueD_setTowerSlot (s : SkiplistMmap) (o l v o' : Nat) :
    valueD (setTowerSlot s o l v) o' = valueD s o' := by
  unfold valueD nodeD
  rw [nodeAt?_setTowerSlot]
  split
  · cases nodeAt? s o' <;> rfl
  · rfl

theorem heightD_setTowerSlot (s : SkiplistMmap) (o l v o' : Nat) :
    heightD (setTowerSlot s o l v) o' = heightD s o' := by
  unfold heightD nodeD
  rw [nodeAt?_setTowerSlot]
  split
  · cases nodeAt? s o' <;> rfl
  · rfl

theorem towerLen_setTowerSlot (s : SkiplistMmap) (o l v o' : Nat) :
    (nodeD (setTowerSlot s o l v) o').tower.length = (nodeD s o').tower.length := by
  unfold nodeD
  rw [nodeAt?_setTowerSlot]
  split
  · cases nodeAt? s o' <;> simp
  · rfl

theorem towerD_setTowerSlot_ne (s : SkiplistMmap) (o l v o' l' : Nat)
    (hne : o' ≠ o ∨ l' ≠ l) :
    towerD (setTowerSlot s o l v) o' l' = towerD s o' l' := by
  unfold towerD nodeD
  rw [nodeAt?_setTowerSlot]
  split
  · rename_i hcond
    rcases hne with hne | hne
    · exact absurd hcond.1 hne
    · cases h : nodeAt? s o' with
      | none => rfl
      | some nd => simp [getD_set, Ne.symm hne]
  · rfl

theorem towerD_setTowerSlot_self (s : SkiplistMmap) (o l v : Nat)
    (h0 : o ≠ 0) (hlt : l < (nodeD s o).tower.length) :
    towerD (setTowerSlot s o l v) o l = v := by
  unfold towerD
  unfold nodeD at hlt ⊢
  rw [nodeAt?_setTowerSlot, if_pos ⟨rfl, h0⟩]
  cases h : nodeAt? s o with
  | none =>
    rw [h] at hlt
    have hz : (default : Node).tower.length = 0 := rfl
    simp [Option.getD_none] at hlt
    omega
  | some nd =>
    rw [h] at hlt
    simp only [Option.getD_some] at hlt
    simp only [Option.map_some', Option.getD_some]
    rw [getD_set]
    simp [hlt]

/-- Field views through `addNode`: old nodes are untouched, and every tower
slot reads the same (the new node's slots are zero, as is the null default
beyond the old arena). -/
theorem keyD_addNode_old (s : SkiplistMmap) (k : List Nat) (v h o' : Nat)
    (ho : o' ≠ s.nodes.length + 1) :
    keyD (addNode s k v h) o' = keyD s o' := by
  unfold keyD nodeD
  rw [nodeAt?_addNode, if_neg ho]

theorem valueD_addNode_old (s : SkiplistMmap) (k : List Nat) (v h o' : Nat)
    (ho : o' ≠ s.nodes.length + 1) :
    valueD (addNode s k v h) o' = valueD s o' := by
  unfold valueD nodeD
  rw [nodeAt?_addNode, if_neg ho]

theorem heightD_addNode_old (s : SkiplistMmap) (k : List Nat) (v h o' : Nat)
    (ho : o' ≠ s.nodes.length + 1) :
    heightD (addNode s k v h) o' = heightD s o' := by
  unfold heightD nodeD
  rw [nodeAt?_addNode, if_neg ho]

theorem keyD_addNode_new (s : SkiplistMmap) (k : List Nat) (v h : Nat) :
    keyD (addNode s k v h) (s.nodes.length + 1) = k := by
  unfold keyD nodeD
  rw [nodeAt?_addNode, if_pos rfl]
  rfl

theorem valueD_addNode_new (s : SkiplistMmap) (k : List Nat) (v h : Nat) :
    valueD (addNode s k v h) (s.nodes.length + 1) = v := by
  unfold valueD nodeD
  rw [nodeAt?_addNode, if_pos rfl]
  rfl

theorem heightD_addNode_new (s : SkiplistMmap) (k : List Nat) (v h : Nat) :
    heightD (addNode s k v h) (s.nodes.length + 1) = h := by
  unfold heightD nodeD
  rw [nodeAt?_addNode, if_pos rfl]
  rfl

theorem towerD_addNode (s : SkiplistMmap) (k : List Nat) (v h o' l : Nat) :
    towerD (addNode s k v h) o' l = towerD s o' l := by
  unfold towerD nodeD
  rw [nodeAt?_addNode]
  by_cases hm : o' = s.nodes.length + 1
  · subst hm
    have : nodeAt? s (s.nodes.length + 1) = none := by
      unfold nodeAt?
      rw [if_neg (by omega), List.get?_eq_getElem?, List.getElem?_eq_none (by omega)]
    simp [this, List.getD_eq_getElem?_getD, List.getElem?_replicate]
    split <;> rfl
  · rw [if_neg hm]

/-! ### Chain lemmas -/

theorem chainSeg_append {s : SkiplistMmap} {l : Nat} (A : List Nat) {B : List Nat}
    {off out : Nat} :
    chainSeg s l off (A ++ B) out = true ↔
      ∃ mid, chainSeg s l off A mid = true ∧ chainSeg s l mid B out = true := by
  induction A generalizing off with
  | nil => simp [chainSeg]
  | cons a rest ih =>
    constructor
    · intro h
      simp only [List.cons_append, chainSeg, Bool.and_eq_true, beq_iff_eq] at h
      obtain ⟨h0, h1⟩ := h
      obtain ⟨mid, h2, h3⟩ := ih.mp h1
      exact ⟨mid, by simp [chainSeg, h0, h2], h3⟩
    · rintro ⟨mid, h1, h2⟩
      simp only [chainSeg, Bool.and_eq_true, beq_iff_eq] at h1
      obtain ⟨h0, h1⟩ := h1
      simp only [List.cons_append, chainSeg, Bool.and_eq_true, beq_iff_eq]
      exact ⟨h0, ih.mpr ⟨mid, h1, h2⟩⟩

theorem chainSeg_congr {s1 s2 : SkiplistMmap} {l : Nat} (L : List Nat)
    (h : ∀ a ∈ L, towerD s2 a l = towerD s1 a l) (off out : Nat) :
    chainSeg s2 l off L out = chainSeg s1 l off L out := by
  induction L generalizing off with
  | nil => rfl
  | cons a rest ih =>
    simp only [chainSeg]
    rw [h a (List.mem_cons_self a rest), ih (fun b hb => h b (List.mem_cons_of_mem a hb))]

theorem chainSeg_out_eq {s : SkiplistMmap} {l off : Nat} {L : List Nat}
    (h : chainSeg s l off L 0 = true) : off = L.headD 0 := by
  cases L with
  | nil => simpa [chainSeg] using h
  | cons a rest =>
    simp only [chainSeg, Bool.and_eq_true, beq_iff_eq] at h
    simpa using h.1

theorem chainSeg_singleton {s : SkiplistMmap} {l off a out : Nat} :
    chainSeg s l off [a] out = true ↔ off = a ∧ towerD s a l = out := by
  simp [chainSeg]

theorem chainWalk_of_chainSeg {s : SkiplistMmap} {l : Nat} {L : List Nat} {off : Nat}
    (hseg : chainSeg s l off L 0 = true) (hnz : ∀ a ∈ L, a ≠ 0) {fuel : Nat}
    (hfuel : L.length ≤ fuel) :
    chainWalk s l fuel off = L := by
  induction L generalizing off fuel with
  | nil =>
    simp only [chainSeg, beq_iff_eq] at hseg
    subst hseg
    cases fuel <;> simp [chainWalk]
  | cons a rest ih =>
    simp only [chainSeg, Bool.and_eq_true, beq_iff_eq] at hseg
    obtain ⟨rfl, hseg⟩ := hseg
    cases fuel with
    | zero => simp at hfuel
    | succ f =>
      have ha := hnz off (by simp)
      simp only [chainWalk, if_neg ha, List.cons.injEq, true_and]
      exact ih hseg (fun b hb => hnz b (by simp [hb])) (by simpa using hfuel)

theorem chainWalk_congr {s1 s2 : SkiplistMmap} {l : Nat}
    (h : ∀ o, towerD s2 o l = towerD s1 o l) (fuel off : Nat) :
    chainWalk s2 l fuel off = chainWalk s1 l fuel off := by
  induction fuel generalizing off with
  | zero => rfl
  | succ f ih => simp only [chainWalk, h, ih]

/-! ### Facts derivable from well-formedness -/

theorem baseChain_pairwise {s : SkiplistMmap} (hwf : WF s) :
    (baseChain s).Pairwise (fun a b => ltKey (keyD s a) (keyD s b)) := by
  obtain ⟨-, -, -, -, -, -, -, hsort, -⟩ := hwf
  haveI : IsTrans Nat (fun a b => ltKey (keyD s a) (keyD s b)) :=
    ⟨fun _ _ _ => ltKey_trans⟩
  exact List.chain'_iff_pairwise.mp hsort

theorem baseChain_nodup {s : SkiplistMmap} (hwf : WF s) : (baseChain s).Nodup := by
  refine (baseChain_pairwise hwf).imp ?_
  intro a b hab
  intro hEq
  subst hEq
  exact ltKey_irrefl _ hab

theorem mem_baseChain_bounds {s : SkiplistMmap} (hwf : WF s) {o : Nat}
    (ho : o ∈ baseChain s) : 2 ≤ o ∧ o ≤ s.nodes.length := by
  obtain ⟨-, -, -, -, -, -, -, -, hsub, -⟩ := hwf
  exact mem_offsets.mp (hsub o ho)

theorem mem_baseChain_height {s : SkiplistMmap} (hwf : WF s) {o : Nat}
    (ho : o ∈ baseChain s) :
    1 ≤ heightD s o ∧ heightD s o ≤ s.height ∧
      (nodeD s o).tower.length = heightD s o := by
  obtain ⟨-, -, -, -, -, -, hnodes, -, hsub, -⟩ := hwf
  exact hnodes o (hsub o ho)

theorem nodeAt?_of_mem_baseChain {s : SkiplistMmap} (hwf : WF s) {o : Nat}
    (ho : o ∈ baseChain s) : nodeAt? s o = some (nodeD s o) := by
  obtain ⟨h2, hN⟩ := mem_baseChain_bounds hwf ho
  have hlt : o - 1 < s.nodes.length := by omega
  unfold nodeAt? nodeD
  rw [if_neg (by omega), List.get?_eq_getElem?, List.getElem?_eq_getElem hlt]
  simp [nodeAt?, if_neg (show ¬ o = 0 by omega), List.get?_eq_getElem?,
    List.getElem?_eq_getElem hlt]

theorem chain_next_head {s : SkiplistMmap} (hwf : WF s) {l : Nat} (hl : l < maxHeight) :
    towerD s 1 l =
      (((baseChain s).filter (fun o => decide (l < heightD s o))).headD 0) ∧
    chainSeg s l (towerD s 1 l)
      ((baseChain s).filter (fun o => decide (l < heightD s o))) 0 = true := by
  obtain ⟨-, -, -, -, -, -, -, -, -, -, hchains⟩ := hwf
  have h := hchains l (List.mem_range.mpr hl)
  exact ⟨chainSeg_out_eq h, h⟩

theorem chain_next {s : SkiplistMmap} (hwf : WF s) {l : Nat} (hl : l < maxHeight)
    {A B : List Nat} {x : Nat}
    (hdec : baseChain s = A ++ x :: B) (hx : l < heightD s x) :
    towerD s x l =
      ((B.filter (fun o => decide (l < heightD s o))).headD 0) ∧
    chainSeg s l (towerD s x l)
      (B.filter (fun o => decide (l < heightD s o))) 0 = true := by
  have hfull := (chain_next_head hwf hl).2
  rw [hdec] at hfull
  rw [List.filter_append] at hfull
  simp only [List.filter_cons, decide_eq_true_eq, if_pos hx] at hfull
  have hassoc :
      (A.filter (fun o => decide (l < heightD s o))) ++
        x :: (B.filter (fun o => decide (l < heightD s o))) =
      ((A.filter (fun o => decide (l < heightD s o))) ++ [x]) ++
        (B.filter (fun o => decide (l < heightD s o))) := by
    simp
  rw [hassoc] at hfull
  obtain ⟨mid, h1, h2⟩ := chainSeg_append _ |>.mp hfull
  obtain ⟨mid2, -, h12⟩ := chainSeg_append _ |>.mp h1
  obtain ⟨-, hxl⟩ := chainSeg_singleton.mp h12
  rw [hxl]
  exact ⟨chainSeg_out_eq h2, h2⟩

theorem lastD_append_cons (A : List Nat) (x : Nat) (C : List Nat) (d : Nat) :
    lastD (A ++ x :: C) d = lastD C x := by
  induction A generalizing d with
  | nil => rfl
  | cons a t ih => simpa [lastD] using ih a

theorem cmpBytes_gt_iff {a b : List Nat} :
    cmpBytes a b = Ordering.gt ↔ ltKey b a := cmpBytes_lt_iff_gt.symm

theorem sspec_eq_general (keyOf : Nat → List Nat) (key : List Nat)
    (σ : List Nat) (b : Nat) :
    sspec keyOf key b σ =
      match (σ.dropWhile (fun o => decide (ltKey (keyOf o) key))).head? with
      | none => (lastD (σ.takeWhile (fun o => decide (ltKey (keyOf o) key))) b, 0)
      | some a =>
        if keyOf a = key then (a, a)
        else (lastD (σ.takeWhile (fun o => decide (ltKey (keyOf o) key))) b, a) := by
  induction σ generalizing b with
  | nil => rfl
  | cons a rest ih =>
    by_cases hpa : ltKey (keyOf a) key
    · have hgt : cmpBytes key (keyOf a) = .gt := cmpBytes_gt_iff.mpr hpa
      simp only [sspec, hgt]
      rw [ih a]
      simp [List.dropWhile_cons, List.takeWhile_cons, hpa, lastD]
    · have hcond : (decide (ltKey (keyOf a) key)) = false := by simp [hpa]
      by_cases heq : keyOf a = key
      · have hceq : cmpBytes key (keyOf a) = .eq := by
          rw [cmpBytes_eq_iff]; exact heq.symm
        simp only [sspec, hceq]
        simp only [List.dropWhile_cons, hcond, Bool.false_eq_true, if_false,
          List.head?_cons]
        simp [heq]
      · have hlt : cmpBytes key (keyOf a) = .lt := by
          rcases h : cmpBytes key (keyOf a) with _ | _ | _
          · rfl
          · exact absurd (cmpBytes_eq_iff.mp h).symm heq
          · exact absurd (cmpBytes_gt_iff.mp h) hpa
        simp only [sspec, hlt]
        simp only [List.dropWhile_cons, List.takeWhile_cons, hcond,
          Bool.false_eq_true, if_false, List.head?_cons]
        simp [heq, lastD]

theorem takeWhile_append_all {α} (p : α → Bool) {A B : List α}
    (hA : ∀ a ∈ A, p a = true) (hB : ∀ b ∈ B.head?.toList, p b = false) :
    (A ++ B).takeWhile p = A ∧ (A ++ B).dropWhile p = B := by
  induction A with
  | nil =>
    cases B with
    | nil => simp
    | cons b t =>
      have := hB b (by simp)
      simp [List.takeWhile_cons, List.dropWhile_cons, this]
  | cons a t ih =>
    have ha := hA a (by simp)
    have := ih (fun x hx => hA x (by simp [hx]))
    simp [List.takeWhile_cons, List.dropWhile_cons, ha, this.1, this.2]

/-- The walk along one level, characterized by the segment it traverses. -/
theorem findSplice_seg {s : SkiplistMmap} {k : List Nat} {l : Nat}
    (σ : List Nat) (x : Nat)
    (hvalid : ∀ a ∈ σ, nodeAt? s a = some (nodeD s a))
    (hseg : chainSeg s l (towerD s x l) σ 0 = true)
    {fuel : Nat} (hfuel : σ.length + 1 ≤ fuel) :
    findSpliceForLevel s k fuel x l = some (sspec (keyD s) k x σ) := by
  induction σ generalizing x fuel with
  | nil =>
    simp only [chainSeg, beq_iff_eq] at hseg
    cases fuel with
    | zero => omega
    | succ f => simp [findSpliceForLevel, hseg, sspec]
  | cons a rest ih =>
    simp only [chainSeg, Bool.and_eq_true, beq_iff_eq] at hseg
    obtain ⟨hxa, hseg⟩ := hseg
    have hvala := hvalid a (by simp)
    have ha0 : a ≠ 0 := by
      intro h
      rw [h] at hvala
      simp [nodeAt?] at hvala
    cases fuel with
    | zero => omega
    | succ f =>
      simp only [findSpliceForLevel, hxa, if_neg ha0, hvala]
      have hkey : (nodeD s a).key = keyD s a := rfl
      rw [hkey]
      rcases hcmp : cmpBytes k (keyD s a) with _ | _ | _
      · simp [sspec, hcmp]
      · simp [sspec, hcmp]
      · simp only [sspec, hcmp]
        exact ih a (fun b hb => hvalid b (List.mem_cons_of_mem a hb)) hseg
          (by simpa using hfuel)

theorem preKeys_append_sufKeys (s : SkiplistMmap) (key : List Nat) :
    preKeys s key ++ sufKeys s key = baseChain s :=
  List.takeWhile_append_dropWhile _ _

theorem mem_preKeys_lt {s : SkiplistMmap} {k : List Nat} {o : Nat}
    (ho : o ∈ preKeys s k) : ltKey (keyD s o) k := by
  have := List.mem_takeWhile_imp ho
  simpa using this

theorem mem_preKeys_base {s : SkiplistMmap} {key : List Nat} {o : Nat}
    (ho : o ∈ preKeys s key) : o ∈ baseChain s := by
  rw [← preKeys_append_sufKeys s key]
  exact List.mem_append_left _ ho

theorem mem_sufKeys_base {s : SkiplistMmap} {key : List Nat} {o : Nat}
    (ho : o ∈ sufKeys s key) : o ∈ baseChain s := by
  rw [← preKeys_append_sufKeys s key]
  exact List.mem_append_right _ ho

theorem mem_dropWhile_false {α} (p : α → Bool) (R : α → α → Prop)
    (hdc : ∀ a b, R a b → p b = true → p a = true)
    {l : List α} (hp : l.Pairwise R) {x : α} (hx : x ∈ l.dropWhile p) :
    p x = false := by
  induction l with
  | nil => simp at hx
  | cons a t ih =>
    rw [List.dropWhile_cons] at hx
    by_cases hpa : p a = true
    · rw [if_pos hpa] at hx
      exact ih (List.pairwise_cons.mp hp).2 hx
    · rw [if_neg hpa] at hx
      rcases List.mem_cons.mp hx with rfl | hxt
      · cases h : p x
        · rfl
        · exact absurd h hpa
      · by_cases hpx : p x = true
        · have hR := (List.pairwise_cons.mp hp).1 x hxt
          exact absurd (hdc a x hR hpx) hpa
        · cases h : p x
          · rfl
          · exact absurd h hpx

theorem mem_sufKeys_not_lt {s : SkiplistMmap} (hwf : WF s) {key : List Nat} {o : Nat}
    (ho : o ∈ sufKeys s key) : ¬ ltKey (keyD s o) key := by
  have h := mem_dropWhile_false (fun o => decide (ltKey (keyD s o) key))
    (fun a b => ltKey (keyD s a) (keyD s b))
    (fun a b hab hb => by
      simp only [decide_eq_true_eq] at hb ⊢
      exact ltKey_trans hab hb)
    (baseChain_pairwise hwf) ho
  simpa using h

/-- Splitting the chain at a node that holds the search key exactly. -/
theorem pre_suf_decomp_of_mem {s : SkiplistMmap} (hwf : WF s) {key : List Nat}
    {t : Nat} (ht : t ∈ baseChain s) (hkey : keyD s t = key) :
    ∃ B, baseChain s = preKeys s key ++ t :: B ∧ sufKeys s key = t :: B ∧
      (∀ o ∈ B, ltKey key (keyD s o)) := by
  obtain ⟨A, B, hAB⟩ := List.append_of_mem ht
  have hpw := baseChain_pairwise hwf
  rw [hAB] at hpw
  rw [List.pairwise_append] at hpw
  obtain ⟨-, hpw2, hcross⟩ := hpw
  have htB := List.pairwise_cons.mp hpw2
  have hApw : ∀ a ∈ A, (fun o => decide (ltKey (keyD s o) key)) a = true := by
    intro a ha
    have := hcross a ha t (by simp)
    simp only [decide_eq_true_eq]
    rw [← hkey]
    exact this
  have htfalse : (fun o => decide (ltKey (keyD s o) key)) t = false := by
    simp only [decide_eq_false_iff_not, hkey]
    exact ltKey_irrefl key
  have hsplit := takeWhile_append_all (fun o => decide (ltKey (keyD s o) key))
    hApw (B := t :: B) (by intro b hb; simp at hb; rw [hb]; exact htfalse)
  refine ⟨B, ?_, ?_, ?_⟩
  · rw [hAB]
    unfold preKeys
    rw [hAB, hsplit.1]
  · unfold sufKeys
    rw [hAB, hsplit.2]
  · intro o hoB
    have := htB.1 o hoB
    rw [← hkey]
    exact this

/-- The entry point of every level walk, characterized: starting from the
head or from any strictly-smaller-keyed node tall enough for the level, the
walk returns the level-restricted last smaller node and first
greater-or-equal node. -/
theorem findSplice_at_level {s : SkiplistMmap} (hwf : WF s) {key : List Nat} {i : Nat}
    (hi : i < maxHeight) {x : Nat}
    (hx : x = 1 ∨ (x ∈ preKeys s key ∧ i < heightD s x))
    {fuel : Nat} (hfuel : spliceFuel s ≤ fuel) :
    findSpliceForLevel s key fuel x i =
      some (match ((sufKeys s key).filter (fun o => decide (i < heightD s o))).head? with
        | none =>
          (lastD ((preKeys s key).filter (fun o => decide (i < heightD s o))) 1, 0)
        | some a =>
          if keyD s a = key then (a, a)
          else
            (lastD ((preKeys s key).filter (fun o => decide (i < heightD s o))) 1,
              a)) := by
  have hlenbase : (baseChain s).length ≤ s.nodes.length := by
    have hnd := baseChain_nodup hwf
    have hsub : baseChain s ⊆ offsets s := by
      intro o ho
      obtain ⟨-, -, -, -, -, -, -, -, hsub, -⟩ := hwf
      exact hsub o ho
    have := (hnd.subperm hsub).length_le
    unfold offsets at this
    simp [List.length_range'] at this
    omega
  have hsufall : ∀ b ∈ ((sufKeys s key).filter
      (fun o => decide (i < heightD s o))).head?.toList,
      (fun o => decide (ltKey (keyD s o) key)) b = false := by
    intro b hb
    cases hh : ((sufKeys s key).filter (fun o => decide (i < heightD s o))).head? with
    | none => rw [hh] at hb; simp at hb
    | some c =>
      rw [hh] at hb
      simp at hb
      subst hb
      have hcmem : b ∈ (sufKeys s key).filter (fun o => decide (i < heightD s o)) := by
        cases hfil : (sufKeys s key).filter (fun o => decide (i < heightD s o)) with
        | nil => rw [hfil] at hh; simp at hh
        | cons d t =>
          rw [hfil] at hh
          simp at hh
          simp [hh]
      have hc : b ∈ sufKeys s key := List.mem_of_mem_filter hcmem
      simp only [decide_eq_false_iff_not]
      exact mem_sufKeys_not_lt hwf hc
  rcases hx with rfl | ⟨hxpre, hxh⟩
  · have hch := chain_next_head hwf hi
    have hvalid : ∀ a ∈ (baseChain s).filter (fun o => decide (i < heightD s o)),
        nodeAt? s a = some (nodeD s a) := by
      intro a ha
      exact nodeAt?_of_mem_baseChain hwf (List.mem_of_mem_filter ha)
    have hlen : ((baseChain s).filter (fun o => decide (i < heightD s o))).length + 1
        ≤ fuel := by
      have := List.length_filter_le (fun o => decide (i < heightD s o)) (baseChain s)
      unfold spliceFuel at hfuel
      omega
    have := findSplice_seg (k := key) _ 1 hvalid hch.2 hlen
    rw [this]
    rw [sspec_eq_general]
    have hbase : (baseChain s).filter (fun o => decide (i < heightD s o)) =
        (preKeys s key).filter (fun o => decide (i < heightD s o)) ++
        (sufKeys s key).filter (fun o => decide (i < heightD s o)) := by
      rw [← List.filter_append, preKeys_append_sufKeys]
    rw [hbase]
    have hpreall : ∀ a ∈ (preKeys s key).filter (fun o => decide (i < heightD s o)),
        (fun o => decide (ltKey (keyD s o) key)) a = true := by
      intro a ha
      simp only [decide_eq_true_eq]
      exact mem_preKeys_lt (List.mem_of_mem_filter ha)
    have hsp := takeWhile_append_all _ hpreall hsufall
    rw [hsp.1, hsp.2]
  · obtain ⟨P1, P2, hP⟩ := List.append_of_mem hxpre
    have hbasedec : baseChain s = P1 ++ x :: (P2 ++ sufKeys s key) := by
      rw [← preKeys_append_sufKeys s key, hP]
      simp
    have hcn := chain_next hwf hi hbasedec hxh
    have hvalid : ∀ a ∈ (P2 ++ sufKeys s key).filter
        (fun o => decide (i < heightD s o)),
        nodeAt? s a = some (nodeD s a) := by
      intro a ha
      refine nodeAt?_of_mem_baseChain hwf ?_
      rw [hbasedec]
      have := List.mem_of_mem_filter ha
      simp only [List.mem_append, List.mem_cons]
      simp only [List.mem_append] at this
      tauto
    have hlen : ((P2 ++ sufKeys s key).filter
        (fun o => decide (i < heightD s o))).length + 1 ≤ fuel := by
      have h1 := List.length_filter_le (fun o => decide (i < heightD s o))
        (P2 ++ sufKeys s key)
      have h2 : (P2 ++ sufKeys s key).length < (baseChain s).length + 1 := by
        rw [hbasedec]
        simp
        omega
      unfold spliceFuel at hfuel
      omega
    have := findSplice_seg (k := key) _ x hvalid hcn.2 hlen
    rw [this]
    rw [sspec_eq_general]
    have hfl : (P2 ++ sufKeys s key).filter (fun o => decide (i < heightD s o)) =
        P2.filter (fun o => decide (i < heightD s o)) ++
        (sufKeys s key).filter (fun o => decide (i < heightD s o)) :=
      List.filter_append _ _
    rw [hfl]
    have hpreall : ∀ a ∈ P2.filter (fun o => decide (i < heightD s o)),
        (fun o => decide (ltKey (keyD s o) key)) a = true := by
      intro a ha
      simp only [decide_eq_true_eq]
      refine mem_preKeys_lt (s := s) (k := key) ?_
      rw [hP]
      exact List.mem_append_right _ (List.mem_cons_of_mem _ (List.mem_of_mem_filter ha))
    have hsp := takeWhile_append_all _ hpreall hsufall
    rw [hsp.1, hsp.2]
    have hprefl : (preKeys s key).filter (fun o => decide (i < heightD s o)) =
        P1.filter (fun o => decide (i < heightD s o)) ++
        x :: P2.filter (fun o => decide (i < heightD s o)) := by
      rw [hP, List.filter_append, List.filter_cons]
      simp [hxh]
    rw [hprefl, lastD_append_cons]

/-! ### The descending splice computation of Put -/

theorem lastD_mem (L : List Nat) (d : Nat) : lastD L d = d ∨ lastD L d ∈ L := by
  induction L generalizing d with
  | nil => exact Or.inl rfl
  | cons a t ih =>
    rcases ih a with h | h
    · exact Or.inr (by simp [lastD, h])
    · exact Or.inr (by simp [lastD]; exact Or.inr h)

theorem mem_of_headEq {α} {l : List α} {a : α} (h : l.head? = some a) : a ∈ l := by
  cases l with
  | nil => simp at h
  | cons b t =>
    simp at h
    simp [h]

/-- The prev side of a splice is the head or a strictly-smaller-keyed node. -/
theorem spliceSpecAt_fst_inv {s : SkiplistMmap} {k : List Nat} {i : Nat} :
    (spliceSpecAt s k i).1 = 1 ∨
      ((spliceSpecAt s k i).1 ∈ preKeys s k ∧ i < heightD s (spliceSpecAt s k i).1) := by
  unfold spliceSpecAt
  rcases lastD_mem ((preKeys s k).filter (fun o => decide (i < heightD s o))) 1 with h | h
  · exact Or.inl h
  · refine Or.inr ⟨List.mem_of_mem_filter h, ?_⟩
    have := List.of_mem_filter h
    simpa using this

theorem spliceSpecAt_fst_pos {s : SkiplistMmap} (hwf : WF s) {k : List Nat} {i : Nat} :
    1 ≤ (spliceSpecAt s k i).1 := by
  rcases spliceSpecAt_fst_inv (s := s) (k := k) (i := i) with h | ⟨h, -⟩
  · omega
  · have := mem_baseChain_bounds hwf (mem_preKeys_base h)
    omega

/-- When the key is present with the node `t`, the descent short-circuits
into the overwrite path and reports `t`. -/
theorem descend_mem {s : SkiplistMmap} (hwf : WF s) {key : List Nat} {t : Nat}
    (ht : t ∈ baseChain s) (hkey : keyD s t = key) :
    ∀ k, 1 ≤ k → k ≤ maxHeight →
      ∀ before, (before = 1 ∨ (before ∈ preKeys s key ∧ k ≤ heightD s before)) →
      ∀ {fuel}, spliceFuel s ≤ fuel →
      descend s key fuel k before = some (.inl t) := by
  intro k
  induction k with
  | zero => omega
  | succ k' ih =>
    intro h1 hk before hbef fuel hfuel
    obtain ⟨B, hdec, hsuf, hB⟩ := pre_suf_decomp_of_mem hwf ht hkey
    have hbef' : before = 1 ∨ (before ∈ preKeys s key ∧ k' < heightD s before) := by
      rcases hbef with h | ⟨h, h2⟩
      · exact Or.inl h
      · exact Or.inr ⟨h, by omega⟩
    have hsplice := findSplice_at_level hwf (show k' < maxHeight by omega) hbef' hfuel
    set p := lastD ((preKeys s key).filter (fun o => decide (k' < heightD s o))) 1
      with hpdef
    have hpfmem := lastD_mem ((preKeys s key).filter
      (fun o => decide (k' < heightD s o))) 1
    rw [← hpdef] at hpfmem
    have hpinv : p = 1 ∨ (p ∈ preKeys s key ∧ k' ≤ heightD s p) := by
      rcases hpfmem with h | h
      · exact Or.inl h
      · refine Or.inr ⟨List.mem_of_mem_filter h, ?_⟩
        have := List.of_mem_filter h
        simp at this
        omega
    have hp1 : 1 ≤ p := by
      rcases hpinv with h | ⟨h, -⟩
      · omega
      · have := mem_baseChain_bounds hwf (mem_preKeys_base h)
        omega
    by_cases hth : k' < heightD s t
    · have hsufF : ((sufKeys s key).filter (fun o => decide (k' < heightD s o))) =
          t :: B.filter (fun o => decide (k' < heightD s o)) := by
        rw [hsuf, List.filter_cons]
        simp [hth]
      rw [hsufF] at hsplice
      simp only [List.head?_cons, hkey, if_pos rfl] at hsplice
      simp only [descend, hsplice]
      simp
    · have hsufF : ((sufKeys s key).filter (fun o => decide (k' < heightD s o))) =
          B.filter (fun o => decide (k' < heightD s o)) := by
        rw [hsuf, List.filter_cons]
        simp [hth]
      rw [hsufF] at hsplice
      have hk'1 : 1 ≤ k' := by
        have := mem_baseChain_height hwf ht
        omega
      cases hh : (B.filter (fun o => decide (k' < heightD s o))).head? with
      | none =>
        rw [hh] at hsplice
        have hsplice2 : findSpliceForLevel s key fuel before k' = some (p, 0) := hsplice
        simp only [descend, hsplice2]
        rw [if_neg (by omega : ¬ p = 0)]
        rw [ih hk'1 (by omega) p hpinv hfuel]
      | some a =>
        rw [hh] at hsplice
        have haB : a ∈ B := List.mem_of_mem_filter (mem_of_headEq hh)
        have hka : ltKey key (keyD s a) := hB a haB
        have hane : ¬ (keyD s a = key) := fun h => ltKey_ne hka h.symm
        have hsplice2 : findSpliceForLevel s key fuel before k' =
            some (if keyD s a = key then (a, a) else (p, a)) := hsplice
        rw [if_neg hane] at hsplice2
        have hamem : a ∈ baseChain s := by
          rw [← preKeys_append_sufKeys s key]
          refine List.mem_append_right _ ?_
          rw [hsuf]
          exact List.mem_cons_of_mem t haB
        have hpa : p ≠ a := by
          rcases hpinv with h | ⟨h, -⟩
          · have := mem_baseChain_bounds hwf hamem
            omega
          · intro hEq
            have hlt := mem_preKeys_lt h
            rw [hEq] at hlt
            exact ltKey_asymm hka hlt
        simp only [descend, hsplice2]
        rw [if_neg hpa]
        rw [ih hk'1 (by omega) p hpinv hfuel]

/-- When the key is absent, the descent reports the per-level splices. -/
theorem descend_not_mem {s : SkiplistMmap} (hwf : WF s) {key : List Nat}
    (habs : ∀ o ∈ baseChain s, keyD s o ≠ key) :
    ∀ k, k ≤ maxHeight →
      ∀ before, (before = 1 ∨ (before ∈ preKeys s key ∧ k ≤ heightD s before)) →
      ∀ {fuel}, spliceFuel s ≤ fuel →
      descend s key fuel k before = some (.inr (splicesSpec s key k)) := by
  intro k
  induction k with
  | zero =>
    intro _ before _ fuel _
    simp [descend, splicesSpec]
  | succ k' ih =>
    intro hk before hbef fuel hfuel
    have hbef' : before = 1 ∨ (before ∈ preKeys s key ∧ k' < heightD s before) := by
      rcases hbef with h | ⟨h, h2⟩
      · exact Or.inl h
      · exact Or.inr ⟨h, by omega⟩
    have hsplice := findSplice_at_level hwf (show k' < maxHeight by omega) hbef' hfuel
    set p := lastD ((preKeys s key).filter (fun o => decide (k' < heightD s o))) 1
      with hpdef
    have hpfmem := lastD_mem ((preKeys s key).filter
      (fun o => decide (k' < heightD s o))) 1
    rw [← hpdef] at hpfmem
    have hpinv : p = 1 ∨ (p ∈ preKeys s key ∧ k' ≤ heightD s p) := by
      rcases hpfmem with h | h
      · exact Or.inl h
      · refine Or.inr ⟨List.mem_of_mem_filter h, ?_⟩
        have := List.of_mem_filter h
        simp at this
        omega
    have hp1 : 1 ≤ p := by
      rcases hpinv with h | ⟨h, -⟩
      · omega
      · have := mem_baseChain_bounds hwf (mem_preKeys_base h)
        omega
    have hrangesucc : splicesSpec s key (k' + 1) =
        splicesSpec s key k' ++ [spliceSpecAt s key k'] := by
      unfold splicesSpec
      rw [List.range_succ, List.map_append]
      rfl
    cases hh : ((sufKeys s key).filter (fun o => decide (k' < heightD s o))).head? with
    | none =>
      rw [hh] at hsplice
      have hsplice2 : findSpliceForLevel s key fuel before k' = some (p, 0) := hsplice
      simp only [descend, hsplice2]
      rw [if_neg (by omega : ¬ p = 0)]
      rw [ih (by omega) p hpinv hfuel]
      rw [hrangesucc]
      unfold spliceSpecAt
      rw [show ((sufKeys s key).filter
        (fun o => decide (k' < heightD s o))).headD 0 = 0 by
          rw [List.headD_eq_head?_getD, hh]; rfl]
    | some a =>
      rw [hh] at hsplice
      have hasuf : a ∈ sufKeys s key := List.mem_of_mem_filter (mem_of_headEq hh)
      have hamem : a ∈ baseChain s := mem_sufKeys_base hasuf
      have hane : ¬ (keyD s a = key) := habs a hamem
      have hsplice2 : findSpliceForLevel s key fuel before k' =
          some (if keyD s a = key then (a, a) else (p, a)) := hsplice
      rw [if_neg hane] at hsplice2
      have hka : ltKey key (keyD s a) :=
        ltKey_of_ne_of_not_lt hane (mem_sufKeys_not_lt hwf hasuf)
      have hpa : p ≠ a := by
        rcases hpinv with h | ⟨h, -⟩
        · have := mem_baseChain_bounds hwf hamem
          omega
        · intro hEq
          have hlt := mem_preKeys_lt h
          rw [hEq] at hlt
          exact ltKey_asymm hka hlt
      simp only [descend, hsplice2]
      rw [if_neg hpa]
      rw [ih (by omega) p hpinv hfuel]
      rw [hrangesucc]
      unfold spliceSpecAt
      rw [show ((sufKeys s key).filter
        (fun o => decide (k' < heightD s o))).headD 0 = a by
          rw [List.headD_eq_head?_getD, hh]; rfl]

theorem baseChain_length_lt {s : SkiplistMmap} (hwf : WF s) :
    (baseChain s).length + 1 ≤ s.nodes.length := by
  have hnd := baseChain_nodup hwf
  have hsub : baseChain s ⊆ offsets s := by
    intro o ho
    obtain ⟨-, -, -, -, -, -, -, -, hsub, -⟩ := hwf
    exact hsub o ho
  have hlen := (hnd.subperm hsub).length_le
  obtain ⟨hpos, -⟩ := hwf
  unfold offsets at hlen
  simp [List.length_range'] at hlen
  omega

theorem nodup_append_cons_unique {l A B C D : List Nat} {x : Nat} (hnd : l.Nodup)
    (h1 : l = A ++ x :: B) (h2 : l = C ++ x :: D) : A = C ∧ B = D := by
  have hxA : x ∉ A := by
    intro hx
    rw [h1, List.nodup_append] at hnd
    exact hnd.2.2 hx (List.mem_cons_self x B)
  have hxC : x ∉ C := by
    intro hx
    rw [h2, List.nodup_append] at hnd
    exact hnd.2.2 hx (List.mem_cons_self x D)
  have htwA : l.takeWhile (fun a => decide (a ≠ x)) = A := by
    rw [h1]
    refine (takeWhile_append_all _ ?_ ?_).1
    · intro a ha
      simp only [decide_eq_true_eq]
      intro hEq
      exact hxA (hEq ▸ ha)
    · intro b hb
      simp at hb
      simp [hb]
  have htwC : l.takeWhile (fun a => decide (a ≠ x)) = C := by
    rw [h2]
    refine (takeWhile_append_all _ ?_ ?_).1
    · intro a ha
      simp only [decide_eq_true_eq]
      intro hEq
      exact hxC (hEq ▸ ha)
    · intro b hb
      simp at hb
      simp [hb]
  have hAC : A = C := htwA.symm.trans htwC
  subst hAC
  refine ⟨rfl, ?_⟩
  rw [h1] at h2
  have := List.append_cancel_left h2
  simpa using this

/-- A walk suffix splits into skipped smaller keys followed by the whole
greater-or-equal suffix. -/
theorem B_suffix_decomp {s : SkiplistMmap} (hwf : WF s) {key : List Nat} {x : Nat}
    {B : List Nat}
    (hx : (x = 1 ∧ baseChain s = B) ∨
      (∃ A, baseChain s = A ++ x :: B ∧ x ∈ preKeys s key)) :
    ∃ R, B = R ++ sufKeys s key ∧ ∀ o ∈ R, o ∈ preKeys s key := by
  rcases hx with ⟨-, hB⟩ | ⟨A, hdec, hxpre⟩
  · refine ⟨preKeys s key, ?_, fun o ho => ho⟩
    rw [← hB, ← preKeys_append_sufKeys]
  · obtain ⟨P1, P2, hP⟩ := List.append_of_mem hxpre
    have hb2 : baseChain s = P1 ++ x :: (P2 ++ sufKeys s key) := by
      rw [← preKeys_append_sufKeys s key, hP]
      simp
    have := nodup_append_cons_unique (baseChain_nodup hwf) hdec hb2
    refine ⟨P2, this.2, fun o ho => ?_⟩
    rw [hP]
    exact List.mem_append_right _ (List.mem_cons_of_mem _ ho)

theorem B_eq_suf_of_head {s : SkiplistMmap} {key : List Nat} {R B : List Nat} {a : Nat}
    (hBR : B = R ++ sufKeys s key) (hRpre : ∀ o ∈ R, o ∈ preKeys s key)
    (hhead : B.head? = some a) (hnot : ¬ ltKey (keyD s a) key) :
    B = sufKeys s key := by
  cases R with
  | nil => simpa using hBR
  | cons r R' =>
    rw [hBR] at hhead
    simp at hhead
    exfalso
    refine hnot ?_
    rw [← hhead]
    exact mem_preKeys_lt (hRpre r (List.mem_cons_self r R'))

/-- The prefix of strictly smaller keys once the walk suffix is exactly the
greater-or-equal suffix. -/
theorem lastOpt_pre_eq {s : SkiplistMmap} (hwf : WF s) {key : List Nat} {x : Nat}
    {B : List Nat}
    (hx : (x = 1 ∧ baseChain s = B) ∨
      (∃ A, baseChain s = A ++ x :: B ∧ x ∈ preKeys s key))
    (hBsuf : B = sufKeys s key) :
    lastOpt (preKeys s key) = if x = 1 then none else some x := by
  rcases hx with ⟨rfl, hB⟩ | ⟨A, hdec, hxpre⟩
  · rw [if_pos rfl]
    have : preKeys s key ++ sufKeys s key = sufKeys s key := by
      rw [preKeys_append_sufKeys, hB, hBsuf]
    have hpre : preKeys s key = [] := by
      have hlen := congrArg List.length this
      simp at hlen
      exact hlen
    simp [lastOpt, hpre]
  · have hx1 : x ≠ 1 := by
      have := mem_baseChain_bounds hwf (mem_preKeys_base hxpre)
      omega
    rw [if_neg hx1]
    have : (A ++ [x]) ++ sufKeys s key = preKeys s key ++ sufKeys s key := by
      rw [preKeys_append_sufKeys, hdec, hBsuf]
      simp
    have hpre : preKeys s key = A ++ [x] := (List.append_cancel_right this).symm
    have hne : preKeys s key ≠ [] := by
      rw [hpre]
      simp
    rw [lastOpt, if_neg hne, hpre]
    rw [show A ++ [x] = A ++ x :: [] from rfl, lastD_append_cons]
    rfl

/-- The walk of `findNear`, characterized: from the head or from any
strictly-smaller-keyed node tall enough for the current level, with the
base-chain suffix `B` ahead of it, the walk computes `nearSpec`. -/
theorem findNearAux_spec {s : SkiplistMmap} (hwf : WF s) (key : List Nat)
    (less allowEqual : Bool) :
    ∀ fuel x level B,
      level < maxHeight →
      ((x = 1 ∧ baseChain s = B) ∨
        (∃ A, baseChain s = A ++ x :: B ∧ x ∈ preKeys s key ∧ level < heightD s x)) →
      level + B.length + 2 ≤ fuel →
      findNearAux s key less allowEqual fuel x level =
        some (nearSpec s key less allowEqual) := by
  intro fuel
  induction fuel with
  | zero =>
    intro x level B _ _ h
    omega
  | succ f ih =>
    intro x level B hlm hx hfuel
    have htow : towerD s x level =
        ((B.filter (fun o => decide (level < heightD s o))).headD 0) := by
      rcases hx with ⟨rfl, hB⟩ | ⟨A, hdec, -, hxh⟩
      · have := (chain_next_head hwf hlm).1
        rw [hB] at this
        exact this
      · exact (chain_next hwf hlm hdec hxh).1
    have hmemB : ∀ b ∈ B, b ∈ baseChain s := by
      rcases hx with ⟨-, hB⟩ | ⟨A, hdec, -, -⟩
      · intro b hb
        rw [hB]
        exact hb
      · intro b hb
        rw [hdec]
        simp [hb]
    obtain ⟨R, hBR, hRpre⟩ := B_suffix_decomp hwf
      (hx.imp id (fun ⟨A, h1, h2, _⟩ => ⟨A, h1, h2⟩))
    have hfilter0 : B.filter (fun o => decide (0 < heightD s o)) = B := by
      refine List.filter_eq_self.mpr ?_
      intro b hb
      have := mem_baseChain_height hwf (hmemB b hb)
      simp
      omega
    cases hσ : B.filter (fun o => decide (level < heightD s o)) with
    | nil =>
      have hnext : towerD s x level = 0 := by
        rw [htow, hσ]
        rfl
      by_cases hlevel : 0 < level
      · -- descend a level
        simp only [findNearAux, hnext, if_pos rfl, if_pos hlevel]
        refine ih x (level - 1) B (by omega) ?_ (by omega)
        rcases hx with ⟨rfl, hB⟩ | ⟨A, hdec, hpre, hxh⟩
        · exact Or.inl ⟨rfl, hB⟩
        · exact Or.inr ⟨A, hdec, hpre, by omega⟩
      · -- level 0, end of list
        have hlevel0 : level = 0 := by omega
        subst hlevel0
        have hBnil : B = [] := by
          rw [← hfilter0, hσ]
        have hsufnil : sufKeys s key = [] := by
          rw [hBnil] at hBR
          exact (List.append_eq_nil.mp hBR.symm).2
        have hBsuf : B = sufKeys s key := by rw [hBnil, hsufnil]
        have hlast := lastOpt_pre_eq hwf
          (hx.imp id (fun ⟨A, h1, h2, _⟩ => ⟨A, h1, h2⟩)) hBsuf
        simp only [findNearAux, hnext, if_pos rfl, Nat.lt_irrefl, if_false]
        cases less with
        | false =>
          cases allowEqual <;> simp [nearSpec, hsufnil]
        | true =>
          by_cases hx1 : x = 1
          · rw [if_pos hx1] at hlast
            cases allowEqual <;> simp [nearSpec, hsufnil, hx1, hlast]
          · rw [if_neg hx1] at hlast
            cases allowEqual <;> simp [nearSpec, hsufnil, hx1, hlast]
    | cons a σ' =>
      have hnext : towerD s x level = a := by
        rw [htow, hσ]
        rfl
      obtain ⟨B1, B2, hBsplit, hB1, hpa, hfB2⟩ := List.filter_eq_cons_iff.mp hσ
      have haB : a ∈ B := by
        rw [hBsplit]
        simp
      have hamem : a ∈ baseChain s := hmemB a haB
      have ha0 : a ≠ 0 := by
        have := mem_baseChain_bounds hwf hamem
        omega
      have hvala : nodeAt? s a = some (nodeD s a) := nodeAt?_of_mem_baseChain hwf hamem
      have hah : level < heightD s a := by simpa using hpa
      simp only [findNearAux, hnext, if_neg ha0, hvala]
      have hkey2 : (nodeD s a).key = keyD s a := rfl
      rw [hkey2]
      rcases hcmp : cmpBytes key (keyD s a) with _ | _ | _
      · -- key < keyD a : next key is bigger
        have hklt : ltKey key (keyD s a) := hcmp
        by_cases hlevel : 0 < level
        · simp only [if_pos hlevel]
          refine ih x (level - 1) B (by omega) ?_ (by omega)
          rcases hx with ⟨rfl, hB⟩ | ⟨A, hdec, hpre, hxh⟩
          · exact Or.inl ⟨rfl, hB⟩
          · exact Or.inr ⟨A, hdec, hpre, by omega⟩
        · have hlevel0 : level = 0 := by omega
          subst hlevel0
          have hB1nil : B1 = [] := by
            rw [List.eq_nil_iff_forall_not_mem]
            intro b hb
            have hbB : b ∈ B := by
              rw [hBsplit]
              simp [hb]
            have := mem_baseChain_height hwf (hmemB b hbB)
            have := hB1 b hb
            simp at this
            omega
          have hBcons : B = a :: B2 := by
            rw [hBsplit, hB1nil]
            rfl
          have hBsuf : B = sufKeys s key :=
            B_eq_suf_of_head hBR hRpre (by rw [hBcons]; rfl)
              (ltKey_asymm hklt)
          have hsufhead : (sufKeys s key).head? = some a := by
            rw [← hBsuf, hBcons]
            rfl
          have hane : ¬ (keyD s a = key) := fun h => ltKey_ne hklt h.symm
          have hlast := lastOpt_pre_eq hwf
            (hx.imp id (fun ⟨A, h1, h2, _⟩ => ⟨A, h1, h2⟩)) hBsuf
          simp only [Nat.lt_irrefl, if_false]
          cases less with
          | false =>
            cases allowEqual <;> simp [nearSpec, hsufhead, hane]
          | true =>
            by_cases hx1 : x = 1
            · rw [if_pos hx1] at hlast
              cases allowEqual <;> simp [nearSpec, hsufhead, hane, hx1, hlast]
            · rw [if_neg hx1] at hlast
              cases allowEqual <;> simp [nearSpec, hsufhead, hane, hx1, hlast]
      · -- keyD a = key : found the key
        have hkeq : keyD s a = key := (cmpBytes_eq_iff.mp hcmp).symm
        obtain ⟨B', hdec', hsuf', hB'⟩ := pre_suf_decomp_of_mem hwf hamem hkeq
        have hsufhead : (sufKeys s key).head? = some a := by
          rw [hsuf']
          rfl
        cases allowEqual with
        | true =>
          cases less <;> simp [nearSpec, hsufhead, hkeq]
        | false =>
          cases less with
          | false =>
            -- return the base-level successor of a
            have hcn := chain_next hwf (show 0 < maxHeight by norm_num [maxHeight])
              hdec' (by have := mem_baseChain_height hwf hamem; omega)
            have hfB' : B'.filter (fun o => decide (0 < heightD s o)) = B' := by
              refine List.filter_eq_self.mpr ?_
              intro b hb
              have hbbase : b ∈ baseChain s := by
                rw [hdec']
                simp [hb]
              have := mem_baseChain_height hwf hbbase
              simp
              omega
            have htow0 : towerD s a 0 = B'.headD 0 := by
              rw [hcn.1, hfB']
            have hoff : offOpt (towerD s a 0) = B'.head? := by
              rw [htow0]
              cases hB'c : B' with
              | nil => simp [offOpt]
              | cons c t =>
                have hcbase : c ∈ baseChain s := by
                  rw [hdec', hB'c]
                  simp
                have := mem_baseChain_bounds hwf hcbase
                simp [offOpt]
                omega
            simp only [Bool.not_false, if_pos rfl, hoff]
            simp [nearSpec, hsufhead, hkeq, hsuf']
          | true =>
            by_cases hlevel : 0 < level
            · simp only [if_pos hlevel]
              refine ih x (level - 1) B (by omega) ?_ (by omega)
              rcases hx with ⟨rfl, hB⟩ | ⟨A, hdec, hpre, hxh⟩
              · exact Or.inl ⟨rfl, hB⟩
              · exact Or.inr ⟨A, hdec, hpre, by omega⟩
            · have hlevel0 : level = 0 := by omega
              subst hlevel0
              have hB1nil : B1 = [] := by
                rw [List.eq_nil_iff_forall_not_mem]
                intro b hb
                have hbB : b ∈ B := by
                  rw [hBsplit]
                  simp [hb]
                have := mem_baseChain_height hwf (hmemB b hbB)
                have := hB1 b hb
                simp at this
                omega
              have hBcons : B = a :: B2 := by
                rw [hBsplit, hB1nil]
                rfl
              have hBsuf : B = sufKeys s key :=
                B_eq_suf_of_head hBR hRpre (by rw [hBcons]; rfl)
                  (by rw [hkeq]; exact ltKey_irrefl key)
              have hlast := lastOpt_pre_eq hwf
                (hx.imp id (fun ⟨A, h1, h2, _⟩ => ⟨A, h1, h2⟩)) hBsuf
              simp only [Nat.lt_irrefl, if_false]
              by_cases hx1 : x = 1
              · rw [if_pos hx1] at hlast
                simp [nearSpec, hsufhead, hkeq, hx1, hlast]
              · rw [if_neg hx1] at hlast
                simp [nearSpec, hsufhead, hkeq, hx1, hlast]
      · -- keyD a < key : move right
        have hagt : ltKey (keyD s a) key := cmpBytes_gt_iff.mp hcmp
        have hapre : a ∈ preKeys s key := by
          have : a ∈ preKeys s key ++ sufKeys s key := by
            rw [preKeys_append_sufKeys]
            exact hamem
          rcases List.mem_append.mp this with h | h
          · exact h
          · exact absurd hagt (mem_sufKeys_not_lt hwf h)
        refine ih a level B2 hlm ?_ ?_
        · rcases hx with ⟨rfl, hB⟩ | ⟨A, hdec, -, -⟩
          · exact Or.inr ⟨B1, by rw [hB, hBsplit], hapre, hah⟩
          · exact Or.inr ⟨A ++ x :: B1, by rw [hdec, hBsplit]; simp, hapre, hah⟩
        · have : B2.length + 1 ≤ B.length := by
            rw [hBsplit]
            simp
          omega

/-- `findNear` always succeeds on a well-formed list and computes
`nearSpec`. -/
theorem findNear_spec {s : SkiplistMmap} (hwf : WF s) (key : List Nat)
    (less allowEqual : Bool) :
    findNear s key less allowEqual = some (nearSpec s key less allowEqual) := by
  unfold findNear
  refine findNearAux_spec hwf key less allowEqual (nearFuel s) 1 (s.height - 1)
    (baseChain s) ?_ (Or.inl ⟨rfl, rfl⟩) ?_
  · obtain ⟨-, -, -, -, hge1, hle, -⟩ := hwf
    omega
  · have := baseChain_length_lt hwf
    obtain ⟨hpos, -, -, -, hge1, -⟩ := hwf
    unfold nearFuel
    omega

/-- The walk of `findLast`, characterized. -/
theorem findLastAux_spec {s : SkiplistMmap} (hwf : WF s) :
    ∀ fuel x level B,
      level < maxHeight →
      ((x = 1 ∧ baseChain s = B) ∨
        (∃ A, baseChain s = A ++ x :: B ∧ level < heightD s x)) →
      level + B.length + 2 ≤ fuel →
      findLastAux s fuel x level = some (lastOpt (baseChain s)) := by
  intro fuel
  induction fuel with
  | zero =>
    intro x level B _ _ h
    omega
  | succ f ih =>
    intro x level B hlm hx hfuel
    have htow : towerD s x level =
        ((B.filter (fun o => decide (level < heightD s o))).headD 0) := by
      rcases hx with ⟨rfl, hB⟩ | ⟨A, hdec, hxh⟩
      · have := (chain_next_head hwf hlm).1
        rw [hB] at this
        exact this
      · exact (chain_next hwf hlm hdec hxh).1
    have hmemB : ∀ b ∈ B, b ∈ baseChain s := by
      rcases hx with ⟨-, hB⟩ | ⟨A, hdec, -⟩
      · intro b hb
        rw [hB]
        exact hb
      · intro b hb
        rw [hdec]
        simp [hb]
    cases hσ : B.filter (fun o => decide (level < heightD s o)) with
    | nil =>
      have hnext : towerD s x level = 0 := by
        rw [htow, hσ]
        rfl
      by_cases hlevel : level = 0
      · subst hlevel
        have hBnil : B = [] := by
          rw [← hσ]
          refine (List.filter_eq_self.mpr ?_).symm
          intro b hb
          have := mem_baseChain_height hwf (hmemB b hb)
          simp
          omega
        simp only [findLastAux, hnext, ne_eq, not_true_eq_false, if_false,
          if_pos rfl]
        rcases hx with ⟨rfl, hB⟩ | ⟨A, hdec, -⟩
        · rw [if_pos rfl]
          rw [hBnil] at hB
          simp [lastOpt, hB]
        · have hxbase : x ∈ baseChain s := by
            rw [hdec]
            simp
          have hx1 : ¬ (x = 1) := by
            have := mem_baseChain_bounds hwf hxbase
            omega
          rw [if_neg hx1]
          rw [hBnil] at hdec
          have hne : baseChain s ≠ [] := by
            rw [hdec]
            simp
          rw [lastOpt, if_neg hne, hdec]
          rw [show A ++ [x] = A ++ x :: [] from rfl, lastD_append_cons]
          rfl
      · simp only [findLastAux, hnext, ne_eq, not_true_eq_false, if_false,
          if_neg hlevel]
        refine ih x (level - 1) B (by omega) ?_ (by omega)
        rcases hx with ⟨rfl, hB⟩ | ⟨A, hdec, hxh⟩
        · exact Or.inl ⟨rfl, hB⟩
        · exact Or.inr ⟨A, hdec, by omega⟩
    | cons a σ' =>
      have hnext : towerD s x level = a := by
        rw [htow, hσ]
        rfl
      obtain ⟨B1, B2, hBsplit, hB1, hpa, hfB2⟩ := List.filter_eq_cons_iff.mp hσ
      have hamem : a ∈ baseChain s := hmemB a (by rw [hBsplit]; simp)
      have ha0 : a ≠ 0 := by
        have := mem_baseChain_bounds hwf hamem
        omega
      have hah : level < heightD s a := by simpa using hpa
      simp only [findLastAux, hnext, ne_eq, ha0, not_false_eq_true, if_true]
      refine ih a level B2 hlm ?_ ?_
      · rcases hx with ⟨rfl, hB⟩ | ⟨A, hdec, -⟩
        · exact Or.inr ⟨B1, by rw [hB, hBsplit], hah⟩
        · exact Or.inr ⟨A ++ x :: B1, by rw [hdec, hBsplit]; simp, hah⟩
      · have : B2.length + 1 ≤ B.length := by
          rw [hBsplit]
          simp
        omega

theorem findLast_spec {s : SkiplistMmap} (hwf : WF s) :
    findLast s = some (lastOpt (baseChain s)) := by
  unfold findLast
  refine findLastAux_spec hwf (nearFuel s) 1 (s.height - 1) (baseChain s) ?_
    (Or.inl ⟨rfl, rfl⟩) ?_
  · obtain ⟨-, -, -, -, hge1, hle, -⟩ := hwf
    omega
  · have := baseChain_length_lt hwf
    obtain ⟨hpos, -, -, -, hge1, -⟩ := hwf
    unfold nearFuel
    omega

/-! ### Lookup in the abstract model -/

theorem lookupA_map_none {L : List Nat} {f : Nat → List Nat} {g : Nat → Nat}
    {key : List Nat} (h : ∀ o ∈ L, f o ≠ key) :
    lookupA (L.map (fun o => (f o, g o))) key = none := by
  induction L with
  | nil => rfl
  | cons o rest ih =>
    simp only [List.map_cons, lookupA]
    rw [if_neg (h o (List.mem_cons_self o rest))]
    exact ih (fun b hb => h b (List.mem_cons_of_mem o hb))

theorem lookupA_map_found {L : List Nat} {f : Nat → List Nat} {g : Nat → Nat}
    {key : List Nat} {t : Nat} (ht : t ∈ L) (hf : f t = key)
    (huniq : ∀ o ∈ L, f o = key → o = t) :
    lookupA (L.map (fun o => (f o, g o))) key = some (g t) := by
  induction L with
  | nil => simp at ht
  | cons o rest ih =>
    simp only [List.map_cons, lookupA]
    by_cases ho : f o = key
    · rw [if_pos ho]
      rw [huniq o (List.mem_cons_self o rest) ho]
    · rw [if_neg ho]
      rcases List.mem_cons.mp ht with rfl | htr
      · exact absurd hf ho
      · exact ih htr (fun b hb hbk => huniq b (List.mem_cons_of_mem o hb) hbk)

theorem pairwise_rel_of_mem_ne {α} {R : α → α → Prop} {l : List α}
    (hp : l.Pairwise R) {a b : α} (ha : a ∈ l) (hb : b ∈ l) (hne : a ≠ b) :
    R a b ∨ R b a := by
  induction l with
  | nil => simp at ha
  | cons c t ih =>
    obtain ⟨hhead, htail⟩ := List.pairwise_cons.mp hp
    rcases List.mem_cons.mp ha with rfl | hat
    · rcases List.mem_cons.mp hb with rfl | hbt
      · exact absurd rfl hne
      · exact Or.inl (hhead b hbt)
    · rcases List.mem_cons.mp hb with rfl | hbt
      · exact Or.inr (hhead a hat)
      · exact ih htail hat hbt

/-- Keys identify nodes: the chain holds at most one node per key. -/
theorem key_unique {s : SkiplistMmap} (hwf : WF s) {a b : Nat}
    (ha : a ∈ baseChain s) (hb : b ∈ baseChain s)
    (hk : keyD s a = keyD s b) : a = b := by
  by_contra hne
  rcases pairwise_rel_of_mem_ne (baseChain_pairwise hwf) ha hb hne with h | h
  · rw [hk] at h
    exact ltKey_irrefl _ h
  · rw [hk] at h
    exact ltKey_irrefl _ h

/-- `Get` is lookup in the model (with 0 for absence). -/
theorem Get_spec {s : SkiplistMmap} (hwf : WF s) (key : List Nat) :
    Get s key = some ((lookupA (model s) key).getD 0) := by
  unfold Get
  rw [findNear_spec hwf key false true]
  cases hh : (sufKeys s key).head? with
  | none =>
    have habs : ∀ o ∈ baseChain s, keyD s o ≠ key := by
      intro o ho
      have hsufnil : sufKeys s key = [] := by
        cases hs : sufKeys s key with
        | nil => rfl
        | cons c t => rw [hs] at hh; simp at hh
      have hopre : o ∈ preKeys s key := by
        have : o ∈ preKeys s key ++ sufKeys s key := by
          rw [preKeys_append_sufKeys]
          exact ho
        rw [hsufnil] at this
        simpa using this
      exact ltKey_ne (mem_preKeys_lt hopre)
    rw [show lookupA (model s) key = none from lookupA_map_none habs]
    simp [nearSpec, hh]
  | some a =>
    have hasuf : a ∈ sufKeys s key := mem_of_headEq hh
    have hamem : a ∈ baseChain s := mem_sufKeys_base hasuf
    by_cases hkeq : keyD s a = key
    · have hfound : lookupA (model s) key = some (valueD s a) := by
        refine lookupA_map_found hamem hkeq ?_
        intro o ho hok
        exact key_unique hwf ho hamem (hok.trans hkeq.symm)
      simp [nearSpec, hh, hkeq, hfound]
    · have habs : ∀ o ∈ baseChain s, keyD s o ≠ key := by
        intro o ho
        have : o ∈ preKeys s key ++ sufKeys s key := by
          rw [preKeys_append_sufKeys]
          exact ho
        rcases List.mem_append.mp this with h | h
        · exact ltKey_ne (mem_preKeys_lt h)
        · intro hEq
          by_cases hoa : o = a
          · exact hkeq (hoa ▸ hEq)
          · have hpw : (sufKeys s key).Pairwise
                (fun a b => ltKey (keyD s a) (keyD s b)) :=
              (baseChain_pairwise hwf).sublist (List.dropWhile_sublist _)
            cases hs : sufKeys s key with
            | nil =>
              rw [hs] at h
              simp at h
            | cons c t =>
              rw [hs] at hh
              simp at hh
              subst hh
              rw [hs] at h hpw
              rcases List.mem_cons.mp h with rfl | hot
              · exact hoa rfl
              · have hlt := (List.pairwise_cons.mp hpw).1 o hot
                rw [hEq] at hlt
                exact mem_sufKeys_not_lt hwf hasuf hlt
      rw [show lookupA (model s) key = none from lookupA_map_none habs]
      simp [nearSpec, hh, hkeq]

/-! ### The insert path of Put -/

theorem lastD_eq_getLast : ∀ (L : List Nat) (d : Nat) (h : L ≠ []),
    lastD L d = L.getLast h := by
  intro L
  induction L with
  | nil => intro d h; exact absurd rfl h
  | cons a t ih =>
    intro d h
    cases t with
    | nil => rfl
    | cons b u =>
      show lastD (b :: u) a = _
      rw [ih a (by simp)]
      exact (List.getLast_cons (by simp)).symm

theorem filter_high_nil {s : SkiplistMmap} (hwf : WF s) {i : Nat} {L : List Nat}
    (hL : ∀ o ∈ L, o ∈ baseChain s) (hi : s.height ≤ i) :
    L.filter (fun o => decide (i < heightD s o)) = [] := by
  rw [List.filter_eq_nil_iff]
  intro o ho
  have := mem_baseChain_height hwf (hL o ho)
  simp
  omega

theorem spliceSpecAt_high {s : SkiplistMmap} (hwf : WF s) {key : List Nat} {i : Nat}
    (hi : s.height ≤ i) : spliceSpecAt s key i = (1, 0) := by
  unfold spliceSpecAt
  rw [filter_high_nil hwf (fun o ho => mem_preKeys_base ho) hi,
    filter_high_nil hwf (fun o ho => mem_sufKeys_base ho) hi]
  rfl

theorem head_tower_high {s : SkiplistMmap} (hwf : WF s) {i : Nat}
    (him : i < maxHeight) (hi : s.height ≤ i) : towerD s 1 i = 0 := by
  have h := (chain_next_head hwf him).2
  rw [filter_high_nil hwf (fun o ho => ho) hi] at h
  simpa [chainSeg] using h

/-- The recorded next offset at a splice is what its prev node's tower
actually holds: the sequential CAS can never fail. -/
theorem towerD_at_splice {s : SkiplistMmap} (hwf : WF s) (key : List Nat) {i : Nat}
    (hi : i < maxHeight) :
    towerD s (spliceSpecAt s key i).1 i = (spliceSpecAt s key i).2 := by
  unfold spliceSpecAt
  cases hL : (preKeys s key).filter (fun o => decide (i < heightD s o)) with
  | nil =>
    have h1 := (chain_next_head hwf hi).1
    have hsplit : (baseChain s).filter (fun o => decide (i < heightD s o)) =
        (preKeys s key).filter (fun o => decide (i < heightD s o)) ++
        (sufKeys s key).filter (fun o => decide (i < heightD s o)) := by
      rw [← List.filter_append, preKeys_append_sufKeys]
    rw [hsplit, hL] at h1
    simpa [lastD] using h1
  | cons c t =>
    have hLne : (preKeys s key).filter (fun o => decide (i < heightD s o)) ≠ [] := by
      rw [hL]
      simp
    rw [← hL]
    set L := (preKeys s key).filter (fun o => decide (i < heightD s o)) with hLdef
    set p := lastD L 1 with hp
    have hpL : p ∈ L := by
      rw [hp, lastD_eq_getLast L 1 hLne]
      exact List.getLast_mem hLne
    have hLlast : L = L.dropLast ++ [p] := by
      rw [hp, lastD_eq_getLast L 1 hLne]
      exact (List.dropLast_append_getLast hLne).symm
    have hppre : p ∈ preKeys s key := List.mem_of_mem_filter hpL
    have hph : i < heightD s p := by
      have := List.of_mem_filter hpL
      simpa using this
    obtain ⟨P1, P2, hP⟩ := List.append_of_mem hppre
    have hpreNodup : (preKeys s key).Nodup :=
      (baseChain_nodup hwf).sublist (List.takeWhile_sublist _)
    have hLfilter : L = P1.filter (fun o => decide (i < heightD s o)) ++
        p :: P2.filter (fun o => decide (i < heightD s o)) := by
      rw [hLdef, hP, List.filter_append, List.filter_cons]
      simp [hph]
    have hLnodup : L.Nodup := hpreNodup.filter _
    have := nodup_append_cons_unique hLnodup hLlast hLfilter
    have hP2nil : P2.filter (fun o => decide (i < heightD s o)) = [] := this.2.symm
    have hbdec : baseChain s = P1 ++ p :: (P2 ++ sufKeys s key) := by
      rw [← preKeys_append_sufKeys s key, hP]
      simp
    have hcn := (chain_next hwf hi hbdec hph).1
    rw [hcn]
    rw [List.filter_append, hP2nil]
    simp

theorem splicesSpec_length (s : SkiplistMmap) (key : List Nat) (k : Nat) :
    (splicesSpec s key k).length = k := by
  simp [splicesSpec]

theorem splicesSpec_getD {s : SkiplistMmap} {key : List Nat} {k i : Nat} (hik : i < k) :
    (splicesSpec s key k).getD i (0, 0) = spliceSpecAt s key i := by
  simp [splicesSpec, List.getD_eq_getElem?_getD, List.getElem?_map,
    List.getElem?_range, hik]

theorem towerLen_addNode_new (s : SkiplistMmap) (key : List Nat) (v h : Nat) :
    (nodeD (addNode s key v h) (s.nodes.length + 1)).tower.length = h := by
  unfold nodeD
  rw [nodeAt?_addNode, if_pos rfl]
  simp

theorem towerLen_addNode_old (s : SkiplistMmap) (key : List Nat) (v h o : Nat)
    (ho : o ≠ s.nodes.length + 1) :
    (nodeD (addNode s key v h) o).tower.length = (nodeD s o).tower.length := by
  unfold nodeD
  rw [nodeAt?_addNode, if_neg ho]

/-- The prev node of every splice is tall enough to carry the link. -/
theorem splice_prev_towerLen {s : SkiplistMmap} (hwf : WF s) (key : List Nat)
    {j : Nat} (hjm : j < maxHeight) :
    j < (nodeD s (spliceSpecAt s key j).1).tower.length := by
  rcases spliceSpecAt_fst_inv (s := s) (k := key) (i := j) with h | ⟨hpre, hh⟩
  · rw [h]
    obtain ⟨-, -, -, ht1, -⟩ := hwf
    omega
  · have := mem_baseChain_height hwf (mem_preKeys_base hpre)
    omega

theorem splice_prev_ne_new {s : SkiplistMmap} (hwf : WF s) (key : List Nat) (j : Nat) :
    (spliceSpecAt s key j).1 ≠ s.nodes.length + 1 := by
  rcases spliceSpecAt_fst_inv (s := s) (k := key) (i := j) with h | ⟨hpre, -⟩
  · obtain ⟨hpos, -⟩ := hwf
    omega
  · have := mem_baseChain_bounds hwf (mem_preKeys_base hpre)
    omega

/-- The linking loop's running state, fully described: record fields, node
fields, and every tower slot. -/
theorem linkState_props {s : SkiplistMmap} (hwf : WF s) (key : List Nat) (v h : Nat)
    (hhm : h ≤ maxHeight) :
    ∀ j, j ≤ h →
      (linkState s key v h j).nodes.length = s.nodes.length + 1 ∧
      (linkState s key v h j).height = max s.height h ∧
      (linkState s key v h j).cursor = s.cursor + putNodeAdvance h + key.length ∧
      (∀ o, keyD (linkState s key v h j) o = keyD (addNode s key v h) o) ∧
      (∀ o, valueD (linkState s key v h j) o = valueD (addNode s key v h) o) ∧
      (∀ o, heightD (linkState s key v h j) o = heightD (addNode s key v h) o) ∧
      (∀ o, (nodeD (linkState s key v h j) o).tower.length =
            (nodeD (addNode s key v h) o).tower.length) ∧
      (∀ o l, towerD (linkState s key v h j) o l =
        if l < j ∧ o = s.nodes.length + 1 then (spliceSpecAt s key l).2
        else if l < j ∧ o = (spliceSpecAt s key l).1 then s.nodes.length + 1
        else towerD s o l) := by
  intro j
  induction j with
  | zero =>
    intro _
    refine ⟨?_, ?_, ?_, ?_, ?_, ?_, ?_, ?_⟩
    · simp [linkState, addNode_length]
    · simp [linkState, addNode_height]
    · simp [linkState, addNode]
    · intro o; rfl
    · intro o; rfl
    · intro o; rfl
    · intro o; rfl
    · intro o l
      simp only [Nat.not_lt_zero, false_and, if_false]
      show towerD (addNode s key v h) o l = towerD s o l
      exact towerD_addNode s key v h o l
  | succ j ihj =>
    intro hjh
    obtain ⟨ih1, ih2, ih3, ih4, ih5, ih6, ih7, ih8⟩ := ihj (by omega)
    have hjm : j < maxHeight := by omega
    set m := s.nodes.length + 1 with hm
    set p := (spliceSpecAt s key j).1 with hpdef
    set n := (spliceSpecAt s key j).2 with hndef
    have hp0 : p ≠ 0 := by
      have := spliceSpecAt_fst_pos hwf (k := key) (i := j)
      omega
    have hpm : p ≠ m := splice_prev_ne_new hwf key j
    have hmlen : j < (nodeD (linkState s key v h j) m).tower.length := by
      rw [ih7 m, towerLen_addNode_new]
      omega
    have hplen : j <
        (nodeD (setTowerSlot (linkState s key v h j) m j n) p).tower.length := by
      rw [towerLen_setTowerSlot, ih7 p, towerLen_addNode_old s key v h p hpm]
      exact splice_prev_towerLen hwf key hjm
    have hstep : linkState s key v h (j + 1) =
        setTowerSlot (setTowerSlot (linkState s key v h j) m j n) p j m := rfl
    refine ⟨?_, ?_, ?_, ?_, ?_, ?_, ?_, ?_⟩
    · rw [hstep, setTowerSlot_length, setTowerSlot_length, ih1]
    · rw [hstep, setTowerSlot_height, setTowerSlot_height, ih2]
    · rw [hstep, setTowerSlot_cursor, setTowerSlot_cursor, ih3]
    · intro o
      rw [hstep, keyD_setTowerSlot, keyD_setTowerSlot, ih4]
    · intro o
      rw [hstep, valueD_setTowerSlot, valueD_setTowerSlot, ih5]
    · intro o
      rw [hstep, heightD_setTowerSlot, heightD_setTowerSlot, ih6]
    · intro o
      rw [hstep, towerLen_setTowerSlot, towerLen_setTowerSlot, ih7]
    · intro o l
      rw [hstep]
      by_cases hlj : l = j
      · subst hlj
        by_cases hom : o = m
        · subst hom
          rw [towerD_setTowerSlot_ne _ _ _ _ _ _ (Or.inl (Ne.symm hpm)),
            towerD_setTowerSlot_self _ _ _ _ (by omega) hmlen]
          rw [if_pos ⟨by omega, rfl⟩]
        · by_cases hop : o = p
          · subst hop
            rw [towerD_setTowerSlot_self _ _ _ _ hp0 hplen]
            rw [if_neg (fun hc => hom hc.2), if_pos ⟨by omega, rfl⟩]
          · rw [towerD_setTowerSlot_ne _ _ _ _ _ _ (Or.inl hop),
              towerD_setTowerSlot_ne _ _ _ _ _ _ (Or.inl hom),
              ih8 o l]
            simp only [Nat.lt_irrefl, false_and, if_false]
            rw [if_neg (fun hc => hom hc.2), if_neg (fun hc => hop hc.2)]
      · rw [towerD_setTowerSlot_ne _ _ _ _ _ _ (Or.inr hlj),
          towerD_setTowerSlot_ne _ _ _ _ _ _ (Or.inr hlj),
          ih8 o l]
        by_cases hlt : l < j
        · have hlt1 : l < j + 1 := by omega
          simp only [hlt, hlt1, true_and]
        · have h2 : ¬ (l < j + 1) := by omega
          simp only [hlt, h2, false_and, if_false]

theorem spliceAt_eq {s : SkiplistMmap} (hwf : WF s) (key : List Nat) {j : Nat}
    (hjlow : j ≤ s.height) :
    spliceAt (splicesSpec s key s.height) s.height j =
      (some (spliceSpecAt s key j).1, (spliceSpecAt s key j).2) := by
  unfold spliceAt
  rw [splicesSpec_length]
  by_cases hlt : j < s.height
  · rw [if_pos hlt, splicesSpec_getD hlt]
    rfl
  · have hEq : j = s.height := by omega
    rw [if_neg hlt, if_pos hEq, spliceSpecAt_high hwf (by omega)]

theorem spliceAt_none {s : SkiplistMmap} (key : List Nat) {j : Nat}
    (hgt : s.height < j) :
    spliceAt (splicesSpec s key s.height) s.height j = (none, 0) := by
  unfold spliceAt
  rw [splicesSpec_length, if_neg (by omega), if_neg (by omega)]

/-- One iteration of the linking loop: the sequential CAS succeeds at once
and the loop never takes the retry or overwrite paths. -/
theorem putLevel_run {s : SkiplistMmap} (hwf : WF s) (key : List Nat) (v h : Nat)
    (hhm : h ≤ maxHeight) {j : Nat} (hjh : j < h) :
    putLevel s key v (s.nodes.length + 1) j (spliceFuel s) (linkState s key v h j)
      (spliceAt (splicesSpec s key s.height) s.height j).1
      (spliceAt (splicesSpec s key s.height) s.height j).2 =
    some (linkState s key v h (j + 1), false) := by
  obtain ⟨ih1, ih2, ih3, ih4, ih5, ih6, ih7, ih8⟩ :=
    linkState_props hwf key v h hhm j (by omega)
  have hjm : j < maxHeight := by omega
  have hp0 : (spliceSpecAt s key j).1 ≠ 0 := by
    have := spliceSpecAt_fst_pos hwf (k := key) (i := j)
    omega
  have hpm : (spliceSpecAt s key j).1 ≠ s.nodes.length + 1 :=
    splice_prev_ne_new hwf key j
  have hmlen : j < (nodeD (linkState s key v h j) (s.nodes.length + 1)).tower.length := by
    rw [ih7, towerLen_addNode_new]
    omega
  have hcas : towerD
      (setTowerSlot (linkState s key v h j) (s.nodes.length + 1) j
        (spliceSpecAt s key j).2)
      (spliceSpecAt s key j).1 j = (spliceSpecAt s key j).2 := by
    rw [towerD_setTowerSlot_ne _ _ _ _ _ _ (Or.inl hpm), ih8]
    simp only [Nat.lt_irrefl, false_and, if_false]
    exact towerD_at_splice hwf key hjm
  have hfuel : spliceFuel s = s.nodes.length + 1 := rfl
  by_cases hj : j ≤ s.height
  · rw [spliceAt_eq hwf key hj]
    exact if_pos hcas
  · rw [spliceAt_none key (by omega)]
    have hj1 : ¬ (j ≤ 1) := by
      obtain ⟨-, -, -, -, hge1, -⟩ := hwf
      omega
    have hsphigh : spliceSpecAt s key j = (1, 0) := spliceSpecAt_high hwf (by omega)
    have hcas2 : towerD (setTowerSlot (linkState s key v h j)
        (s.nodes.length + 1) j 0) 1 j = 0 := by
      have h2 := hcas
      rw [hsphigh] at h2
      exact h2
    have hlink : linkState s key v h (j + 1) =
        setTowerSlot (setTowerSlot (linkState s key v h j) (s.nodes.length + 1) j 0)
          1 j (s.nodes.length + 1) := by
      show setTowerSlot (setTowerSlot (linkState s key v h j) (s.nodes.length + 1) j
          (spliceSpecAt s key j).2) (spliceSpecAt s key j).1 j (s.nodes.length + 1) = _
      rw [hsphigh]
    have hsp : findSpliceForLevel (linkState s key v h j) key
        (spliceFuel s) 1 j = some (1, 0) := by
      rw [hfuel]
      have htow : towerD (linkState s key v h j) 1 j = 0 := by
        rw [ih8]
        simp only [Nat.lt_irrefl, false_and, if_false]
        exact head_tower_high hwf hjm (by omega)
      simp [findSpliceForLevel, htow]
    rw [hfuel]
    simp only [putLevel]
    rw [if_neg hj1]
    rw [hsp, hlink]
    exact if_pos hcas2

/-- The linking loop runs to completion with no early return. -/
theorem putLoop_run {s : SkiplistMmap} (hwf : WF s) (key : List Nat) (v h : Nat)
    (hhm : h ≤ maxHeight) :
    ∀ r j, j + r = h →
      putLoop s key v (s.nodes.length + 1)
        (spliceAt (splicesSpec s key s.height) s.height) j r
        (linkState s key v h j) = some (linkState s key v h h) := by
  intro r
  induction r with
  | zero =>
    intro j hj
    have : j = h := by omega
    subst this
    rfl
  | succ r ih =>
    intro j hj
    simp only [putLoop]
    rw [putLevel_run hwf key v h hhm (show j < h by omega)]
    exact ih (j + 1) (by omega)

/-- `Put` on an absent key: the new node is created and linked at every
level, and the final state is `linkState h`. -/
theorem Put_insert {s : SkiplistMmap} (hwf : WF s) {key : List Nat} {v h : Nat}
    (habs : ∀ o ∈ baseChain s, keyD s o ≠ key) (hhm : h ≤ maxHeight) :
    Put s key v h = some (linkState s key v h h) := by
  have hle : s.height ≤ maxHeight := by
    obtain ⟨-, -, -, -, -, h6, -⟩ := hwf
    exact h6
  simp only [Put]
  rw [descend_not_mem hwf habs s.height hle 1 (Or.inl rfl) (Nat.le_refl _)]
  exact putLoop_run hwf key v h hhm h 0 (by omega)

theorem filter0_eq {s : SkiplistMmap} (hwf : WF s) {L : List Nat}
    (hL : ∀ o ∈ L, o ∈ baseChain s) :
    L.filter (fun o => decide (0 < heightD s o)) = L := by
  refine List.filter_eq_self.mpr ?_
  intro o ho
  have := mem_baseChain_height hwf (hL o ho)
  simp
  omega

theorem pre_suf_disjoint {s : SkiplistMmap} (hwf : WF s) {key : List Nat} {o : Nat}
    (hp : o ∈ preKeys s key) (hsuf : o ∈ sufKeys s key) : False :=
  mem_sufKeys_not_lt hwf hsuf (mem_preKeys_lt hp)

/-- The level-`l` chain of the post-insert state. -/
theorem insert_chainSeg {s : SkiplistMmap} (hwf : WF s) (key : List Nat) (v h : Nat)
    (hhm : h ≤ maxHeight) {l : Nat} (hlm : l < maxHeight) :
    (l < h →
      chainSeg (linkState s key v h h) l (towerD (linkState s key v h h) 1 l)
        ((preKeys s key).filter (fun o => decide (l < heightD s o)) ++
          (s.nodes.length + 1) ::
          (sufKeys s key).filter (fun o => decide (l < heightD s o))) 0 = true) ∧
    (h ≤ l →
      chainSeg (linkState s key v h h) l (towerD (linkState s key v h h) 1 l)
        ((preKeys s key).filter (fun o => decide (l < heightD s o)) ++
          (sufKeys s key).filter (fun o => decide (l < heightD s o))) 0 = true) := by
  obtain ⟨ih1, ih2, ih3, ih4, ih5, ih6, ih7, ih8⟩ :=
    linkState_props hwf key v h hhm h (Nat.le_refl h)
  have hN1 : 1 ≤ s.nodes.length := by
    obtain ⟨hpos, -⟩ := hwf
    omega
  have hold := (chain_next_head hwf hlm).2
  have hsplit : (baseChain s).filter (fun o => decide (l < heightD s o)) =
      (preKeys s key).filter (fun o => decide (l < heightD s o)) ++
      (sufKeys s key).filter (fun o => decide (l < heightD s o)) := by
    rw [← List.filter_append, preKeys_append_sufKeys]
  rw [hsplit] at hold
  obtain ⟨mid, hseg1, hseg2⟩ := chainSeg_append _ |>.mp hold
  have hmid : mid = ((sufKeys s key).filter
      (fun o => decide (l < heightD s o))).headD 0 := chainSeg_out_eq hseg2
  have hsufm : ∀ a ∈ (sufKeys s key).filter (fun o => decide (l < heightD s o)),
      towerD (linkState s key v h h) a l = towerD s a l := by
    intro a ha
    have hasuf := List.mem_of_mem_filter ha
    have habase := mem_sufKeys_base hasuf
    have haN := mem_baseChain_bounds hwf habase
    rw [ih8]
    have h1 : ¬ (a = s.nodes.length + 1) := by omega
    have h2 : ¬ (a = (spliceSpecAt s key l).1) := by
      rcases spliceSpecAt_fst_inv (s := s) (k := key) (i := l) with hq | ⟨hq, -⟩
      · omega
      · intro hEq
        exact pre_suf_disjoint hwf (hEq ▸ hq) hasuf
    simp [h1, h2]
  constructor
  · -- levels the new node participates in
    intro hlh
    have htm : towerD (linkState s key v h h) (s.nodes.length + 1) l =
        (spliceSpecAt s key l).2 := by
      rw [ih8]
      simp [hlh]
    have hsegSuf : chainSeg (linkState s key v h h) l (spliceSpecAt s key l).2
        ((sufKeys s key).filter (fun o => decide (l < heightD s o))) 0 = true := by
      rw [chainSeg_congr _ hsufm]
      have : (spliceSpecAt s key l).2 = mid := by
        rw [hmid]
        rfl
      rw [this]
      exact hseg2
    have hsegTail : chainSeg (linkState s key v h h) l (s.nodes.length + 1)
        ((s.nodes.length + 1) ::
          (sufKeys s key).filter (fun o => decide (l < heightD s o))) 0 = true := by
      simp only [chainSeg, Bool.and_eq_true, beq_iff_eq]
      exact ⟨trivial, by rw [htm]; exact hsegSuf⟩
    refine (chainSeg_append _).mpr ⟨s.nodes.length + 1, ?_, hsegTail⟩
    cases hFpre : (preKeys s key).filter (fun o => decide (l < heightD s o)) with
    | nil =>
      simp only [chainSeg, beq_iff_eq]
      rw [ih8]
      have hp1 : (spliceSpecAt s key l).1 = 1 := by
        unfold spliceSpecAt
        rw [hFpre]
        rfl
      have h1 : ¬ ((1:Nat) = s.nodes.length + 1) := by omega
      simp [hlh, hp1, h1]
    | cons c t =>
      have hFne : (preKeys s key).filter (fun o => decide (l < heightD s o)) ≠ [] := by
        rw [hFpre]
        simp
      set F := (preKeys s key).filter (fun o => decide (l < heightD s o)) with hF
      set p := (spliceSpecAt s key l).1 with hp
      have hplast : p = F.getLast hFne := by
        rw [hp]
        unfold spliceSpecAt
        exact lastD_eq_getLast F 1 hFne
      have hFdec : F = F.dropLast ++ [p] := by
        rw [hplast]
        exact (List.dropLast_append_getLast hFne).symm
      have hpF : p ∈ F := by
        rw [hplast]
        exact List.getLast_mem hFne
      have hppre : p ∈ preKeys s key := List.mem_of_mem_filter hpF
      have hpbase : p ∈ baseChain s := mem_preKeys_base hppre
      have hpN := mem_baseChain_bounds hwf hpbase
      have hFnodup : F.Nodup :=
        ((baseChain_nodup hwf).sublist (List.takeWhile_sublist _)).filter _
      have hpnotdrop : p ∉ F.dropLast := by
        intro hmem
        have := hFdec
        rw [this] at hFnodup
        rw [List.nodup_append] at hFnodup
        exact hFnodup.2.2 hmem (List.mem_cons_self p [])
      -- split the old prefix segment at its last element
      rw [hFdec] at hseg1
      obtain ⟨mid2, hseg1a, hseg1b⟩ := chainSeg_append _ |>.mp hseg1
      obtain ⟨hmid2, -⟩ := chainSeg_singleton.mp hseg1b
      rw [← hFpre, hFdec]
      refine (chainSeg_append _).mpr ⟨p, ?_, ?_⟩
      · have hcongr : ∀ a ∈ F.dropLast,
            towerD (linkState s key v h h) a l = towerD s a l := by
          intro a ha
          have haF : a ∈ F := List.dropLast_subset _ ha
          have habase := mem_baseChain_bounds hwf
            (mem_preKeys_base (List.mem_of_mem_filter haF))
          rw [ih8]
          have h1 : ¬ (a = s.nodes.length + 1) := by omega
          have h2 : ¬ (a = p) := fun hEq => hpnotdrop (hEq ▸ ha)
          simp [h1, h2, hp]
        rw [chainSeg_congr _ hcongr]
        have hstart : towerD (linkState s key v h h) 1 l = towerD s 1 l := by
          rw [ih8]
          have h1 : ¬ ((1:Nat) = s.nodes.length + 1) := by omega
          have h2 : ¬ ((1:Nat) = p) := by omega
          simp [h1, h2, hp]
        rw [hstart]
        rw [hmid2] at hseg1a
        exact hseg1a
      · refine chainSeg_singleton.mpr ⟨rfl, ?_⟩
        rw [ih8]
        have h1 : ¬ (p = s.nodes.length + 1) := by omega
        simp [h1, hlh, hp]
  · -- levels above the new node: unchanged
    intro hhl
    have hstart : towerD (linkState s key v h h) 1 l = towerD s 1 l := by
      rw [ih8]
      have h1 : ¬ ((1:Nat) = s.nodes.length + 1) := by omega
      have h2 : ¬ (l < h) := by omega
      simp [h1, h2]
    have hcongr : ∀ a ∈ (preKeys s key).filter (fun o => decide (l < heightD s o)) ++
        (sufKeys s key).filter (fun o => decide (l < heightD s o)),
        towerD (linkState s key v h h) a l = towerD s a l := by
      intro a ha
      rw [ih8]
      have h2 : ¬ (l < h) := by omega
      simp [h2]
    rw [hstart, chainSeg_congr _ hcongr]
    exact hold

/-- The observable node fields of the post-insert state. -/
theorem insert_views {s : SkiplistMmap} (hwf : WF s) (key : List Nat) (v h : Nat)
    (hhm : h ≤ maxHeight) :
    (linkState s key v h h).nodes.length = s.nodes.length + 1 ∧
    (linkState s key v h h).height = max s.height h ∧
    (linkState s key v h h).cursor = s.cursor + putNodeAdvance h + key.length ∧
    (∀ o, keyD (linkState s key v h h) o =
      if o = s.nodes.length + 1 then key else keyD s o) ∧
    (∀ o, valueD (linkState s key v h h) o =
      if o = s.nodes.length + 1 then v else valueD s o) ∧
    (∀ o, heightD (linkState s key v h h) o =
      if o = s.nodes.length + 1 then h else heightD s o) ∧
    (∀ o, (nodeD (linkState s key v h h) o).tower.length =
      if o = s.nodes.length + 1 then h else (nodeD s o).tower.length) := by
  obtain ⟨ih1, ih2, ih3, ih4, ih5, ih6, ih7, ih8⟩ :=
    linkState_props hwf key v h hhm h (Nat.le_refl h)
  refine ⟨ih1, ih2, ih3, ?_, ?_, ?_, ?_⟩
  · intro o
    rw [ih4]
    by_cases ho : o = s.nodes.length + 1
    · subst ho
      rw [if_pos rfl, keyD_addNode_new]
    · rw [if_neg ho, keyD_addNode_old _ _ _ _ _ ho]
  · intro o
    rw [ih5]
    by_cases ho : o = s.nodes.length + 1
    · subst ho
      rw [if_pos rfl, valueD_addNode_new]
    · rw [if_neg ho, valueD_addNode_old _ _ _ _ _ ho]
  · intro o
    rw [ih6]
    by_cases ho : o = s.nodes.length + 1
    · subst ho
      rw [if_pos rfl, heightD_addNode_new]
    · rw [if_neg ho, heightD_addNode_old _ _ _ _ _ ho]
  · intro o
    rw [ih7]
    by_cases ho : o = s.nodes.length + 1
    · subst ho
      rw [if_pos rfl, towerLen_addNode_new]
    · rw [if_neg ho, towerLen_addNode_old _ _ _ _ _ ho]

/-- The base chain after an insert: the new node sits exactly between the
strictly smaller and the strictly greater keys. -/
theorem baseChain_insert {s : SkiplistMmap} (hwf : WF s) (key : List Nat) (v h : Nat)
    (hh1 : 1 ≤ h) (hhm : h ≤ maxHeight) :
    baseChain (linkState s key v h h) =
      preKeys s key ++ (s.nodes.length + 1) :: sufKeys s key := by
  have hmax0 : 0 < maxHeight := by norm_num [maxHeight]
  have hseg := (insert_chainSeg hwf key v h hhm hmax0).1 (by omega)
  rw [filter0_eq hwf (fun o ho => mem_preKeys_base ho),
    filter0_eq hwf (fun o ho => mem_sufKeys_base ho)] at hseg
  obtain ⟨hlen, -⟩ := insert_views hwf key v h hhm
  unfold baseChain
  rw [hlen]
  refine chainWalk_of_chainSeg hseg ?_ ?_
  · intro a ha
    rcases List.mem_append.mp ha with h1 | h1
    · have := mem_baseChain_bounds hwf (mem_preKeys_base h1)
      omega
    · rcases List.mem_cons.mp h1 with rfl | h2
      · omega
      · have := mem_baseChain_bounds hwf (mem_sufKeys_base h2)
        omega
  · have h1 : (preKeys s key).length + (sufKeys s key).length =
        (baseChain s).length := by
      rw [← List.length_append, preKeys_append_sufKeys]
    have h2 := baseChain_length_lt hwf
    simp
    omega

/-- Well-formedness is preserved by the insert path. -/
theorem WF_insert {s : SkiplistMmap} (hwf : WF s) {key : List Nat} {v h : Nat}
    (habs : ∀ o ∈ baseChain s, keyD s o ≠ key) (hh1 : 1 ≤ h) (hhm : h ≤ maxHeight) :
    WF (linkState s key v h h) := by
  obtain ⟨hlen, hheight, hcursor, hkeyv, hvalv, hhtv, htlv⟩ :=
    insert_views hwf key v h hhm
  have hbase := baseChain_insert hwf key v h hh1 hhm
  have hN1 : 0 < s.nodes.length := hwf.1
  obtain ⟨-, hk1, hh1', ht1, hge1, hle1, hnodes, hsort, hsub, hsup, hchains⟩ := hwf
  have hm1 : ¬ ((1:Nat) = s.nodes.length + 1) := by omega
  have hsufgt : ∀ b ∈ sufKeys s key, ltKey key (keyD s b) := by
    intro b hb
    exact ltKey_of_ne_of_not_lt (habs b (mem_sufKeys_base hb))
      (mem_sufKeys_not_lt ⟨hN1, hk1, hh1', ht1, hge1, hle1, hnodes, hsort, hsub,
        hsup, hchains⟩ hb)
  refine ⟨?_, ?_, ?_, ?_, ?_, ?_, ?_, ?_, ?_, ?_, ?_⟩
  · rw [hlen]
    omega
  · rw [hkeyv 1, if_neg hm1]
    exact hk1
  · rw [hhtv 1, if_neg hm1]
    exact hh1'
  · rw [htlv 1, if_neg hm1]
    exact ht1
  · rw [hheight]
    omega
  · rw [hheight]
    omega
  · intro o ho
    rw [mem_offsets] at ho
    rw [hlen] at ho
    rw [hhtv o, htlv o]
    by_cases hom : o = s.nodes.length + 1
    · rw [if_pos hom, if_pos hom, hheight]
      refine ⟨hh1, ?_, rfl⟩
      omega
    · rw [if_neg hom, if_neg hom, hheight]
      have hoo : o ∈ offsets s := mem_offsets.mpr ⟨ho.1, by omega⟩
      obtain ⟨a, b, c⟩ := hnodes o hoo
      exact ⟨a, by omega, c⟩
  · -- sortedness of the new chain
    rw [hbase]
    haveI : IsTrans Nat
        (fun a b => ltKey (keyD (linkState s key v h h) a)
          (keyD (linkState s key v h h) b)) := ⟨fun _ _ _ => ltKey_trans⟩
    rw [List.chain'_iff_pairwise]
    have hwfs : WF s := ⟨hN1, hk1, hh1', ht1, hge1, hle1, hnodes, hsort, hsub,
      hsup, hchains⟩
    have hpw := baseChain_pairwise hwfs
    rw [← preKeys_append_sufKeys s key, List.pairwise_append] at hpw
    obtain ⟨hpwPre, hpwSuf, hpwCross⟩ := hpw
    have hkeq : ∀ o, o ∈ preKeys s key ∨ o ∈ sufKeys s key →
        keyD (linkState s key v h h) o = keyD s o := by
      intro o ho
      rw [hkeyv o, if_neg]
      intro hEq
      rcases ho with ho | ho
      · have := mem_baseChain_bounds hwfs (mem_preKeys_base ho)
        omega
      · have := mem_baseChain_bounds hwfs (mem_sufKeys_base ho)
        omega
    rw [List.pairwise_append]
    refine ⟨?_, ?_, ?_⟩
    · refine hpwPre.imp_of_mem ?_
      intro a b ha hb hab
      rw [hkeq a (Or.inl ha), hkeq b (Or.inl hb)]
      exact hab
    · rw [List.pairwise_cons]
      refine ⟨?_, ?_⟩
      · intro b hb
        rw [hkeq b (Or.inr hb), hkeyv (s.nodes.length + 1), if_pos rfl]
        exact hsufgt b hb
      · refine hpwSuf.imp_of_mem ?_
        intro a b ha hb hab
        rw [hkeq a (Or.inr ha), hkeq b (Or.inr hb)]
        exact hab
    · intro a ha b hb
      rcases List.mem_cons.mp hb with rfl | hb2
      · rw [hkeq a (Or.inl ha), hkeyv (s.nodes.length + 1), if_pos rfl]
        exact mem_preKeys_lt ha
      · rw [hkeq a (Or.inl ha), hkeq b (Or.inr hb2)]
        exact hpwCross a ha b hb2
  · intro o ho
    rw [hbase] at ho
    rw [mem_offsets, hlen]
    have hwfs : WF s := ⟨hN1, hk1, hh1', ht1, hge1, hle1, hnodes, hsort, hsub,
      hsup, hchains⟩
    rcases List.mem_append.mp ho with h1 | h1
    · have := mem_baseChain_bounds hwfs (mem_preKeys_base h1)
      omega
    · rcases List.mem_cons.mp h1 with rfl | h2
      · omega
      · have := mem_baseChain_bounds hwfs (mem_sufKeys_base h2)
        omega
  · intro o ho
    rw [mem_offsets, hlen] at ho
    rw [hbase]
    by_cases hom : o = s.nodes.length + 1
    · subst hom
      exact List.mem_append_right _ (List.mem_cons_self _ _)
    · have hob : o ∈ baseChain s := hsup o (mem_offsets.mpr ⟨ho.1, by omega⟩)
      rw [← preKeys_append_sufKeys s key] at hob
      rcases List.mem_append.mp hob with h1 | h1
      · exact List.mem_append_left _ h1
      · exact List.mem_append_right _ (List.mem_cons_of_mem _ h1)
  · intro l hl
    rw [List.mem_range] at hl
    have hwfs : WF s := ⟨hN1, hk1, hh1', ht1, hge1, hle1, hnodes, hsort, hsub,
      hsup, hchains⟩
    have hfilters : (baseChain (linkState s key v h h)).filter
        (fun o => decide (l < heightD (linkState s key v h h) o)) =
        (preKeys s key).filter (fun o => decide (l < heightD s o)) ++
        (if l < h then [s.nodes.length + 1] else []) ++
        (sufKeys s key).filter (fun o => decide (l < heightD s o)) := by
      rw [hbase, List.filter_append, List.filter_cons]
      have hcpre : (preKeys s key).filter
          (fun o => decide (l < heightD (linkState s key v h h) o)) =
          (preKeys s key).filter (fun o => decide (l < heightD s o)) := by
        refine List.filter_congr ?_
        intro o ho
        rw [hhtv o, if_neg]
        have := mem_baseChain_bounds hwfs (mem_preKeys_base ho)
        omega
      have hcsuf : (sufKeys s key).filter
          (fun o => decide (l < heightD (linkState s key v h h) o)) =
          (sufKeys s key).filter (fun o => decide (l < heightD s o)) := by
        refine List.filter_congr ?_
        intro o ho
        rw [hhtv o, if_neg]
        have := mem_baseChain_bounds hwfs (mem_sufKeys_base ho)
        omega
      rw [hcpre, hcsuf]
      rw [hhtv (s.nodes.length + 1), if_pos rfl]
      by_cases hlh : l < h
      · simp [hlh]
      · simp [hlh]
    rw [hfilters]
    by_cases hlh : l < h
    · rw [if_pos hlh]
      have := (insert_chainSeg hwfs key v h hhm hl).1 hlh
      simpa using this
    · rw [if_neg hlh]
      have := (insert_chainSeg hwfs key v h hhm hl).2 (by omega)
      simpa using this

/-- Lookup after an insert: the new key maps to the new value, all other
keys are untouched. -/
theorem lookup_insert {s : SkiplistMmap} (hwf : WF s) {key : List Nat} {v h : Nat}
    (habs : ∀ o ∈ baseChain s, keyD s o ≠ key) (hh1 : 1 ≤ h) (hhm : h ≤ maxHeight)
    (k' : List Nat) :
    lookupA (model (linkState s key v h h)) k' =
      if k' = key then some v else lookupA (model s) k' := by
  obtain ⟨hlen, hheight, hcursor, hkeyv, hvalv, hhtv, htlv⟩ :=
    insert_views hwf key v h hhm
  have hbase := baseChain_insert hwf key v h hh1 hhm
  have hmem : ∀ o, o ∈ baseChain (linkState s key v h h) ↔
      (o ∈ baseChain s ∨ o = s.nodes.length + 1) := by
    intro o
    rw [hbase, ← preKeys_append_sufKeys s key]
    simp only [List.mem_append, List.mem_cons]
    tauto
  have hkeyF : ∀ o ∈ baseChain s, keyD (linkState s key v h h) o = keyD s o := by
    intro o ho
    rw [hkeyv o, if_neg]
    have := mem_baseChain_bounds hwf ho
    omega
  have hvalF : ∀ o ∈ baseChain s, valueD (linkState s key v h h) o = valueD s o := by
    intro o ho
    rw [hvalv o, if_neg]
    have := mem_baseChain_bounds hwf ho
    omega
  by_cases hk : k' = key
  · rw [if_pos hk]
    have hfound : lookupA ((baseChain (linkState s key v h h)).map
        (fun o => (keyD (linkState s key v h h) o,
          valueD (linkState s key v h h) o))) k' =
        some (valueD (linkState s key v h h) (s.nodes.length + 1)) := by
      refine lookupA_map_found ((hmem _).mpr (Or.inr rfl))
        (by rw [hkeyv, if_pos rfl]; exact hk.symm) ?_
      intro o ho hko
      rcases (hmem o).mp ho with h1 | h1
      · rw [hkeyF o h1, hk] at hko
        exact absurd hko (habs o h1)
      · exact h1
    unfold model
    rw [hfound, hvalv, if_pos rfl]
  · rw [if_neg hk]
    by_cases hex : ∃ t ∈ baseChain s, keyD s t = k'
    · obtain ⟨t, htb, htk⟩ := hex
      have hL : lookupA ((baseChain (linkState s key v h h)).map
          (fun o => (keyD (linkState s key v h h) o,
            valueD (linkState s key v h h) o))) k' =
          some (valueD (linkState s key v h h) t) := by
        refine lookupA_map_found ((hmem t).mpr (Or.inl htb))
          (by rw [hkeyF t htb]; exact htk) ?_
        intro o ho hko
        rcases (hmem o).mp ho with h1 | h1
        · rw [hkeyF o h1] at hko
          exact key_unique hwf h1 htb (hko.trans htk.symm)
        · subst h1
          rw [hkeyv, if_pos rfl] at hko
          exact absurd hko.symm hk
      have hR : lookupA (model s) k' = some (valueD s t) := by
        refine lookupA_map_found htb htk ?_
        intro o ho hko
        exact key_unique hwf ho htb (hko.trans htk.symm)
      unfold model at hR ⊢
      rw [hL, hR, hvalF t htb]
    · push_neg at hex
      have hL : lookupA ((baseChain (linkState s key v h h)).map
          (fun o => (keyD (linkState s key v h h) o,
            valueD (linkState s key v h h) o))) k' = none := by
        refine lookupA_map_none ?_
        intro o ho
        rcases (hmem o).mp ho with h1 | h1
        · rw [hkeyF o h1]
          exact hex o h1
        · subst h1
          rw [hkeyv, if_pos rfl]
          exact fun hEq => hk hEq.symm
      have hR : lookupA (model s) k' = none := lookupA_map_none hex
      unfold model at hR ⊢
      rw [hL, hR]

/-! ### The overwrite path of Put -/

theorem Put_overwrite {s : SkiplistMmap} (hwf : WF s) {key : List Nat} {t : Nat}
    (ht : t ∈ baseChain s) (hkey : keyD s t = key) (v h : Nat) :
    Put s key v h = some (setValue s t v) := by
  obtain ⟨-, -, -, -, hge1, hle1, -⟩ := id hwf
  simp only [Put]
  rw [descend_mem hwf ht hkey s.height hge1 hle1 1 (Or.inl rfl) (Nat.le_refl _)]

theorem baseChain_setValue (s : SkiplistMmap) (t v : Nat) :
    baseChain (setValue s t v) = baseChain s := by
  unfold baseChain
  rw [setValue_length]
  rw [chainWalk_congr (fun o => towerD_setValue s t v o 0), towerD_setValue]

theorem WF_setValue {s : SkiplistMmap} (hwf : WF s) (t v : Nat) :
    WF (setValue s t v) := by
  obtain ⟨h1, h2, h3, h4, h5, h6, h7, h8, h9, h10, h11⟩ := hwf
  have hoff : offsets (setValue s t v) = offsets s := by
    unfold offsets
    rw [setValue_length]
  refine ⟨?_, ?_, ?_, ?_, ?_, ?_, ?_, ?_, ?_, ?_, ?_⟩
  · rw [setValue_length]
    exact h1
  · rw [keyD_setValue]
    exact h2
  · rw [heightD_setValue]
    exact h3
  · rw [towerLen_setValue]
    exact h4
  · rw [setValue_height]
    exact h5
  · rw [setValue_height]
    exact h6
  · intro o ho
    rw [hoff] at ho
    rw [heightD_setValue, towerLen_setValue, setValue_height]
    exact h7 o ho
  · rw [baseChain_setValue]
    have : (fun a b => ltKey (keyD (setValue s t v) a) (keyD (setValue s t v) b)) =
        (fun a b => ltKey (keyD s a) (keyD s b)) := by
      funext a b
      rw [keyD_setValue, keyD_setValue]
    rw [this]
    exact h8
  · intro o ho
    rw [baseChain_setValue] at ho
    rw [hoff]
    exact h9 o ho
  · intro o ho
    rw [hoff] at ho
    rw [baseChain_setValue]
    exact h10 o ho
  · intro l hl
    rw [baseChain_setValue]
    have hc : (baseChain s).filter
        (fun o => decide (l < heightD (setValue s t v) o)) =
        (baseChain s).filter (fun o => decide (l < heightD s o)) := by
      refine List.filter_congr ?_
      intro o ho
      rw [heightD_setValue]
    rw [hc, towerD_setValue,
      chainSeg_congr _ (fun a _ => towerD_setValue s t v a l)]
    exact h11 l hl

theorem valueD_setValue_self {s : SkiplistMmap} {t : Nat} (h0 : t ≠ 0)
    (hlt : t - 1 < s.nodes.length) (v : Nat) :
    valueD (setValue s t v) t = v := by
  unfold valueD nodeD
  rw [nodeAt?_setValue, if_pos ⟨rfl, h0⟩]
  unfold nodeAt?
  rw [if_neg h0, List.get?_eq_getElem?, List.getElem?_eq_getElem hlt]
  rfl

theorem valueD_setValue_ne {s : SkiplistMmap} {t o : Nat} (hne : o ≠ t) (v : Nat) :
    valueD (setValue s t v) o = valueD s o := by
  unfold valueD nodeD
  rw [nodeAt?_setValue, if_neg (fun hc => hne hc.1)]

/-- Lookup after an overwrite. -/
theorem lookup_setValue {s : SkiplistMmap} (hwf : WF s) {key : List Nat} {t : Nat}
    (ht : t ∈ baseChain s) (hkey : keyD s t = key) (v : Nat) (k' : List Nat) :
    lookupA (model (setValue s t v)) k' =
      if k' = key then some v else lookupA (model s) k' := by
  have hb := mem_baseChain_bounds hwf ht
  have hkeyF : ∀ o, keyD (setValue s t v) o = keyD s o := keyD_setValue s t v
  by_cases hk : k' = key
  · rw [if_pos hk]
    have hfound : lookupA ((baseChain (setValue s t v)).map
        (fun o => (keyD (setValue s t v) o, valueD (setValue s t v) o))) k' =
        some (valueD (setValue s t v) t) := by
      refine lookupA_map_found (by rw [baseChain_setValue]; exact ht)
        (by rw [hkeyF, hkey]; exact hk.symm) ?_
      intro o ho hko
      rw [baseChain_setValue] at ho
      rw [hkeyF, hk] at hko
      exact key_unique hwf ho ht (hko.trans hkey.symm)
    unfold model
    rw [hfound, valueD_setValue_self (by omega) (by omega)]
  · rw [if_neg hk]
    by_cases hex : ∃ u ∈ baseChain s, keyD s u = k'
    · obtain ⟨u, hub, huk⟩ := hex
      have hut : u ≠ t := by
        intro hEq
        subst hEq
        rw [huk] at hkey
        exact hk hkey
      have hL : lookupA ((baseChain (setValue s t v)).map
          (fun o => (keyD (setValue s t v) o, valueD (setValue s t v) o))) k' =
          some (valueD (setValue s t v) u) := by
        refine lookupA_map_found (by rw [baseChain_setValue]; exact hub)
          (by rw [hkeyF]; exact huk) ?_
        intro o ho hko
        rw [baseChain_setValue] at ho
        rw [hkeyF] at hko
        exact key_unique hwf ho hub (hko.trans huk.symm)
      have hR : lookupA (model s) k' = some (valueD s u) := by
        refine lookupA_map_found hub huk ?_
        intro o ho hko
        exact key_unique hwf ho hub (hko.trans huk.symm)
      unfold model at hR ⊢
      rw [hL, hR, valueD_setValue_ne hut]
    · push_neg at hex
      have hL : lookupA ((baseChain (setValue s t v)).map
          (fun o => (keyD (setValue s t v) o, valueD (setValue s t v) o))) k' =
          none := by
        refine lookupA_map_none ?_
        intro o ho
        rw [baseChain_setValue] at ho
        rw [hkeyF]
        exact hex o ho
      unfold model
      rw [hL]
      exact (lookupA_map_none hex).symm

theorem offOpt_headD {s : SkiplistMmap} (hwf : WF s) {Q : List Nat}
    (hQ : ∀ o ∈ Q, o ∈ baseChain s) : offOpt (Q.headD 0) = Q.head? := by
  cases Q with
  | nil => rfl
  | cons a l =>
    have := (mem_baseChain_bounds hwf (hQ a (by simp))).1
    simp only [List.headD_cons, List.head?_cons, offOpt]
    rw [if_neg (by omega)]

theorem head_tower0 {s : SkiplistMmap} (hwf : WF s) :
    towerD s 1 0 = (baseChain s).headD 0 := by
  have h := (chain_next_head hwf (l := 0) (by norm_num [maxHeight])).1
  rwa [filter0_eq hwf (fun o ho => ho)] at h

theorem succ_tower0 {s : SkiplistMmap} (hwf : WF s) {A B : List Nat} {x : Nat}
    (hdec : baseChain s = A ++ x :: B) : towerD s x 0 = B.headD 0 := by
  have hx : x ∈ baseChain s := by rw [hdec]; simp
  have hh := (mem_baseChain_height hwf hx).1
  have h := (chain_next hwf (l := 0) (by norm_num [maxHeight]) hdec (by omega)).1
  rwa [filter0_eq hwf (fun o ho => by rw [hdec]; simp [ho])] at h

theorem iterTraceAux_spec {s : SkiplistMmap} (hwf : WF s) :
    ∀ (Q A : List Nat) (fuel : Nat), baseChain s = A ++ Q → Q.length < fuel →
      iterTraceAux s fuel ⟨Q.head?⟩ = some (Q.map (keyD s)) := by
  intro Q
  induction Q with
  | nil =>
    intro A fuel _ hfuel
    cases fuel with
    | zero => omega
    | succ f => rfl
  | cons x Q ih =>
    intro A fuel hdec hfuel
    cases fuel with
    | zero => omega
    | succ f =>
      have hnext : towerD s x 0 = Q.headD 0 := succ_tower0 hwf hdec
      have hQsub : ∀ o ∈ Q, o ∈ baseChain s := by
        intro o ho; rw [hdec]; simp [ho]
      have hstep : IterNext s ⟨some x⟩ = some ⟨Q.head?⟩ := by
        simp only [IterNext]
        rw [hnext, offOpt_headD hwf hQsub]
      show iterTraceAux s (f + 1) ⟨some x⟩ = some ((x :: Q).map (keyD s))
      simp only [iterTraceAux, hstep]
      rw [ih (A ++ [x]) f (by rw [hdec]; simp) (by simp at hfuel; omega)]
      rfl

/-- The forward iteration of a well-formed skiplist terminates (reaching an
invalid iterator) and visits exactly the level-0 chain, in order. -/
theorem iterTrace_spec {s : SkiplistMmap} (hwf : WF s) :
    iterTrace s = some ((baseChain s).map (keyD s)) := by
  unfold iterTrace IterSeekToFirst
  rw [head_tower0 hwf, offOpt_headD hwf (fun o ho => ho)]
  exact iterTraceAux_spec hwf (baseChain s) [] (s.nodes.length + 1) rfl
    (by have := baseChain_length_lt hwf; omega)

theorem lookupA_isSome_iff (L : List (List Nat × Nat)) (k : List Nat) :
    (lookupA L k).isSome = true ↔ ∃ p ∈ L, p.1 = k := by
  induction L with
  | nil => simp [lookupA]
  | cons p L ih =>
    obtain ⟨pk, pv⟩ := p
    by_cases h : pk = k
    · simp [lookupA, h]
    · simp [lookupA, h, ih]

/-- One sequential `Put`, both paths packaged: it succeeds, preserves
well-formedness, updates the represented map at exactly `key`, and is
monotone in height and node count. -/
theorem Put_spec {s : SkiplistMmap} (hwf : WF s) (key : List Nat) (v h : Nat)
    (hh1 : 1 ≤ h) (hhm : h ≤ maxHeight) :
    ∃ s2, Put s key v h = some s2 ∧ WF s2 ∧
      (∀ k2, lookupA (model s2) k2 =
        if k2 = key then some v else lookupA (model s) k2) ∧
      s.height ≤ s2.height ∧ s.nodes.length ≤ s2.nodes.length := by
  by_cases hex : ∃ t ∈ baseChain s, keyD s t = key
  · obtain ⟨t, ht, hkey⟩ := hex
    refine ⟨setValue s t v, Put_overwrite hwf ht hkey v h, WF_setValue hwf t v,
      fun k2 => lookup_setValue hwf ht hkey v k2, ?_, ?_⟩
    · rw [setValue_height]
    · rw [setValue_length]
  · push_neg at hex
    obtain ⟨hlen, hheight, -⟩ := insert_views hwf key v h hhm
    refine ⟨linkState s key v h h, Put_insert hwf hex hhm, WF_insert hwf hex hh1 hhm,
      fun k2 => lookup_insert hwf hex hh1 hhm k2, ?_, ?_⟩
    · rw [hheight]; exact Nat.le_max_left _ _
    · rw [hlen]; omega

/-- A sequence of sequential `Put`s, by induction: it succeeds, preserves
well-formedness, and the represented map afterwards is the last-write-wins
overlay of the puts on the original map. -/
theorem applyPuts_spec :
    ∀ (ps : List (List Nat × Nat × Nat)) (s : SkiplistMmap), WF s →
      (∀ p ∈ ps, 1 ≤ p.2.2 ∧ p.2.2 ≤ maxHeight) →
      ∃ s2, applyPuts s ps = some s2 ∧ WF s2 ∧
        (∀ k, lookupA (model s2) k = (lastPutVal ps k).or (lookupA (model s) k)) ∧
        s.height ≤ s2.height ∧ s.nodes.length ≤ s2.nodes.length := by
  intro ps
  induction ps with
  | nil =>
    intro s hwf _
    exact ⟨s, rfl, hwf, fun k => rfl, Nat.le_refl _, Nat.le_refl _⟩
  | cons p ps ih =>
    intro s hwf hok
    obtain ⟨k, v, h⟩ := p
    have hh := hok (k, v, h) (by simp)
    obtain ⟨s1, hput, hwf1, hlook1, hht1, hlen1⟩ := Put_spec hwf k v h hh.1 hh.2
    obtain ⟨s2, happ, hwf2, hlook2, hht2, hlen2⟩ := ih s1 hwf1
      (fun q hq => hok q (by simp [hq]))
    refine ⟨s2, ?_, hwf2, ?_, Nat.le_trans hht1 hht2, Nat.le_trans hlen1 hlen2⟩
    · simp only [applyPuts, hput]
      exact happ
    · intro key
      rw [hlook2 key]
      simp only [lastPutVal]
      cases hl : lastPutVal ps key with
      | some w => rfl
      | none =>
        rw [hlook1 key]
        by_cases hk : key = k
        · rw [if_pos hk, if_pos (by exact hk.symm)]
          rfl
        · rw [if_neg hk, if_neg (fun hEq => hk hEq.symm)]

/-- The freshly constructed skiplist is well-formed. -/
theorem WF_new : WF NewSkiplistMmap := by decide

theorem model_new : model NewSkiplistMmap = [] := rfl

/-! ### Emptiness and the arena zeroing loop -/

/-- `Empty()` succeeds on a well-formed list and decides whether only the
head node exists. -/
theorem Empty_iff {s : SkiplistMmap} (hwf : WF s) :
    Empty s = some (decide (s.nodes.length = 1)) := by
  have hbc : baseChain s = [] ↔ s.nodes.length = 1 := by
    obtain ⟨hpos, -, -, -, -, -, -, -, hsub, hsup, -⟩ := id hwf
    constructor
    · intro hnil
      by_contra hne
      have h2 : 2 ∈ offsets s := mem_offsets.mpr ⟨Nat.le_refl 2, by omega⟩
      have := hsup 2 h2
      rw [hnil] at this
      simp at this
    · intro h1
      rw [List.eq_nil_iff_forall_not_mem]
      intro o ho
      have := mem_offsets.mp (hsub o ho)
      omega
  unfold Empty
  rw [findLast_spec hwf]
  show some (Option.isNone (lastOpt (baseChain s))) = some (decide (s.nodes.length = 1))
  congr 1
  by_cases hb : baseChain s = []
  · rw [show lastOpt (baseChain s) = none from if_pos hb]
    exact (decide_eq_true (hbc.mp hb)).symm
  · rw [show lastOpt (baseChain s) = some (lastD (baseChain s) 1) from if_neg hb]
    exact (decide_eq_false (fun h1 => hb (hbc.mpr h1))).symm

theorem take_all_zero {d : List Nat} {bp : Nat} (hlen : d.length ≤ bp)
    (htake : d.take bp = List.replicate (min bp d.length) 0) :
    d = List.replicate d.length 0 := by
  conv_lhs => rw [← List.take_append_drop bp d]
  rw [htake, Nat.min_eq_right hlen, List.drop_eq_nil_of_le hlen, List.append_nil]

/-- The doubling loop of `zeroOut`: once a zeroed prefix of length `bp`
covers the slice or keeps doubling with enough fuel, the whole slice is
zeroed. -/
theorem zeroOutLoop_spec :
    ∀ (fuel : Nat) (d : List Nat) (bp : Nat), 1 ≤ bp → d.length ≤ bp + fuel →
      d.take bp = List.replicate (min bp d.length) 0 →
      zeroOutLoop fuel d bp = List.replicate d.length 0 := by
  intro fuel
  induction fuel with
  | zero =>
    intro d bp _ hlen htake
    show d = List.replicate d.length 0
    exact take_all_zero (by omega) htake
  | succ fuel ih =>
    intro d bp hbp hlen htake
    by_cases hlt : bp < d.length
    · rw [Nat.min_eq_left (by omega)] at htake
      have hcw : copyWithin d bp =
          List.replicate (min (2 * bp) d.length) 0 ++ d.drop (2 * bp) := by
        unfold copyWithin
        rw [htake, ← List.replicate_add,
          show bp + bp = 2 * bp from by omega]
        by_cases h2 : 2 * bp ≤ d.length
        · rw [List.take_of_length_le (by simp; omega), Nat.min_eq_left h2]
        · rw [List.drop_eq_nil_of_le (by omega), List.append_nil,
            List.append_nil, List.take_replicate,
            Nat.min_eq_right (show d.length ≤ 2 * bp from by omega),
            Nat.min_eq_left (show d.length ≤ 2 * bp from by omega)]
      have hcwlen : (copyWithin d bp).length = d.length := by
        rw [hcw]
        simp
        omega
      have hstep : zeroOutLoop (fuel + 1) d bp =
          zeroOutLoop fuel (copyWithin d bp) (bp * 2) := by
        show (if bp < d.length then zeroOutLoop fuel (copyWithin d bp) (bp * 2)
          else d) = _
        rw [if_pos hlt]
      have htake2 : (copyWithin d bp).take (bp * 2) =
          List.replicate (min (bp * 2) (copyWithin d bp).length) 0 := by
        rw [hcwlen, hcw, show bp * 2 = 2 * bp from by omega]
        by_cases h2 : 2 * bp ≤ d.length
        · rw [Nat.min_eq_left h2, List.take_left' (by simp)]
        · rw [List.drop_eq_nil_of_le (by omega), List.append_nil,
            Nat.min_eq_right (show d.length ≤ 2 * bp from by omega),
            List.take_replicate,
            Nat.min_eq_right (show d.length ≤ 2 * bp from by omega)]
      rw [hstep,
        ih (copyWithin d bp) (bp * 2) (by omega) (by rw [hcwlen]; omega) htake2,
        hcwlen]
    · have hstep : zeroOutLoop (fuel + 1) d bp = d := by
        show (if bp < d.length then zeroOutLoop fuel (copyWithin d bp) (bp * 2)
          else d) = _
        rw [if_neg hlt]
      rw [hstep]
      exact take_all_zero (by omega) htake

/-- `zeroOut(data, offset)` with `offset < len(data)`: the prefix is kept
and the tail from `offset` on is zeroed. -/
theorem zeroOut_spec {data : List Nat} {offset : Nat} (hoff : offset < data.length) :
    zeroOut data offset =
      some (data.take offset ++ List.replicate (data.length - offset) 0) := by
  have hdlen : (data.drop offset).length = data.length - offset := by simp
  show (if (data.drop offset).length = 0 then none
    else some (data.take offset ++
      zeroOutLoop ((data.drop offset).length + 1) ((data.drop offset).set 0 0) 1)) = _
  rw [if_neg (by omega)]
  have hset : ((data.drop offset).set 0 0).length = data.length - offset := by
    simp
  have hzero : zeroOutLoop ((data.drop offset).length + 1)
      ((data.drop offset).set 0 0) 1 =
      List.replicate (data.length - offset) 0 := by
    rw [← hset]
    refine zeroOutLoop_spec _ _ 1 (Nat.le_refl 1) (by omega) ?_
    cases hd : data.drop offset with
    | nil =>
      rw [hd] at hdlen
      simp at hdlen
      omega
    | cons a l =>
      show (0 :: l).take 1 = _
      rw [show ((a :: l : List Nat).set 0 0).length = l.length + 1 from by simp,
        Nat.min_eq_left (show 1 ≤ l.length + 1 from by omega)]
      rfl
  rw [hzero]

/-! ### Helper facts shared by the claim theorems -/

theorem or_lookup_nil (x : Option Nat) (k : List Nat) :
    x.or (lookupA [] k) = x := by
  cases x <;> rfl

theorem mem_keys_iff_lookup {s : SkiplistMmap} (k : List Nat) :
    (lookupA (model s) k).isSome = true ↔ k ∈ (baseChain s).map (keyD s) := by
  rw [lookupA_isSome_iff]
  constructor
  · rintro ⟨p, hp, hpk⟩
    obtain ⟨o, ho, rfl⟩ := List.mem_map.mp hp
    exact List.mem_map.mpr ⟨o, ho, hpk⟩
  · intro hk
    obtain ⟨o, ho, rfl⟩ := List.mem_map.mp hk
    exact ⟨(keyD s o, valueD s o), List.mem_map.mpr ⟨o, ho, rfl⟩, rfl⟩

/-! ### The claims -/

/-- Claim C1: starting from `NewSkiplistMmap`, any sequence of sequential
`Put(k, v)` calls succeeds, and afterwards `Get(k)` returns the value of the
last `Put` with key `k`, and `0` for every key never put. -/
theorem C1 (ps : List (List Nat × Nat × Nat))
    (hok : ∀ p ∈ ps, 1 ≤ p.2.2 ∧ p.2.2 ≤ maxHeight) :
    ∃ s2, applyPuts NewSkiplistMmap ps = some s2 ∧
      ∀ k, Get s2 k = some ((lastPutVal ps k).getD 0) := by
  obtain ⟨s2, happ, hwf2, hlook, -, -⟩ := applyPuts_spec ps NewSkiplistMmap WF_new hok
  refine ⟨s2, happ, fun k => ?_⟩
  rw [Get_spec hwf2 k, hlook k, model_new, or_lookup_nil]

/-- Claim C2: after any sequence of sequential `Put`s, `SeekToFirst` followed
by repeated `Next` terminates at an invalid iterator (the trace is `some`),
visits keys in strictly increasing byte-lexicographic order with no
duplicates, and visits exactly the stored keys. -/
theorem C2 (ps : List (List Nat × Nat × Nat))
    (hok : ∀ p ∈ ps, 1 ≤ p.2.2 ∧ p.2.2 ≤ maxHeight) :
    ∃ s2 tr, applyPuts NewSkiplistMmap ps = some s2 ∧ iterTrace s2 = some tr ∧
      tr.Pairwise ltKey ∧ tr.Nodup ∧
      ∀ k, k ∈ tr ↔ (lastPutVal ps k).isSome = true := by
  obtain ⟨s2, happ, hwf2, hlook, -, -⟩ := applyPuts_spec ps NewSkiplistMmap WF_new hok
  have hpw : ((baseChain s2).map (keyD s2)).Pairwise ltKey :=
    List.pairwise_map.mpr (baseChain_pairwise hwf2)
  refine ⟨s2, (baseChain s2).map (keyD s2), happ, iterTrace_spec hwf2, hpw,
    hpw.imp (fun hab => ltKey_ne hab), fun k => ?_⟩
  rw [← mem_keys_iff_lookup k, hlook k, model_new, or_lookup_nil]

/-- Claim C3: `Put(k, v)` on a key already present updates the value word of
that key node in place: the arena cursor (`MemSize`), the node count, the
list height, every key, every node height, and every tower link are
unchanged, and only node `t` changes its value, which afterwards reads `v`. -/
theorem C3 {s : SkiplistMmap} (hwf : WF s) {key : List Nat} {t : Nat}
    (ht : t ∈ baseChain s) (hkey : keyD s t = key) (v h : Nat) :
    Put s key v h = some (setValue s t v) ∧
    MemSize (setValue s t v) = MemSize s ∧
    (setValue s t v).nodes.length = s.nodes.length ∧
    (setValue s t v).height = s.height ∧
    (∀ o, keyD (setValue s t v) o = keyD s o) ∧
    (∀ o, heightD (setValue s t v) o = heightD s o) ∧
    (∀ o l, towerD (setValue s t v) o l = towerD s o l) ∧
    (∀ o, o ≠ t → valueD (setValue s t v) o = valueD s o) ∧
    valueD (setValue s t v) t = v ∧
    Get (setValue s t v) key = some v := by
  have hb := mem_baseChain_bounds hwf ht
  have hwf2 := WF_setValue hwf t v
  refine ⟨Put_overwrite hwf ht hkey v h, setValue_cursor s t v, setValue_length s t v,
    setValue_height s t v, keyD_setValue s t v, heightD_setValue s t v,
    towerD_setValue s t v, fun o hne => valueD_setValue_ne hne v,
    valueD_setValue_self (by omega) (by omega) v, ?_⟩
  rw [Get_spec hwf2 key, lookup_setValue hwf ht hkey v key, if_pos rfl]
  rfl

/-- Claim C4 (corrected): for a present key `k` at node `t`,
`SeekForPrev(k)` positions the iterator at `k` itself — not strictly before
it — so a following `Next()` yields the strict successor of `k` (every
remaining key is greater than `k`), refuting the first half of the claim;
`Seek(k)` positions at `k` and a following `Prev()` yields the last key
strictly smaller than `k`, confirming the second half. -/
theorem C4 {s : SkiplistMmap} (hwf : WF s) {key : List Nat} {t : Nat}
    (ht : t ∈ baseChain s) (hkey : keyD s t = key) (it : IteratorMmap) :
    ∃ B, sufKeys s key = t :: B ∧
      IterSeekForPrev s it key = some ⟨some t⟩ ∧
      IterNext s ⟨some t⟩ = some ⟨B.head?⟩ ∧
      (∀ o ∈ B, ltKey key (keyD s o)) ∧
      IterSeek s it key = some ⟨some t⟩ ∧
      IterPrev s ⟨some t⟩ = some ⟨lastOpt (preKeys s key)⟩ ∧
      (∀ o ∈ preKeys s key, ltKey (keyD s o) key) := by
  obtain ⟨B, hdec, hsuf, hBgt⟩ := pre_suf_decomp_of_mem hwf ht hkey
  have hns : nearSpec s key true true = (some t, true) := by
    unfold nearSpec
    rw [hsuf]
    show (if keyD s t = key then (some t, true)
      else (lastOpt (preKeys s key), false)) = _
    rw [if_pos hkey]
  have hns2 : nearSpec s key false true = (some t, true) := by
    unfold nearSpec
    rw [hsuf]
    show (some t, decide (keyD s t = key)) = (some t, true)
    rw [hkey]
    simp
  refine ⟨B, hsuf, ?_, ?_, hBgt, ?_, ?_, fun o ho => mem_preKeys_lt ho⟩
  · unfold IterSeekForPrev
    rw [findNear_spec hwf key true true, hns]
    rfl
  · show some (⟨offOpt (towerD s t 0)⟩ : IteratorMmap) = some ⟨B.head?⟩
    rw [succ_tower0 hwf hdec,
      offOpt_headD hwf (fun o ho => by rw [hdec]; simp [ho])]
  · unfold IterSeek
    rw [findNear_spec hwf key false true, hns2]
    rfl
  · show (findNear s (keyD s t) true false).map
      (fun r => (⟨r.1⟩ : IteratorMmap)) = _
    rw [hkey, findNear_spec hwf key true false]
    rfl

/-- Claim C4, counterexample to the original first half: in the list holding
keys `[97]` and `[98]`, the key `[97]` is present and is not the last key,
yet `SeekForPrev([97])` followed by `Next()` positions the iterator at
`[98]`, not at `[97]`. -/
theorem C4_counterexample :
    2 ∈ baseChain ((applyPuts NewSkiplistMmap
        [([97], 5, 1), ([98], 6, 2)]).getD NewSkiplistMmap) ∧
    keyD ((applyPuts NewSkiplistMmap
        [([97], 5, 1), ([98], 6, 2)]).getD NewSkiplistMmap) 2 = [97] ∧
    3 ∈ baseChain ((applyPuts NewSkiplistMmap
        [([97], 5, 1), ([98], 6, 2)]).getD NewSkiplistMmap) ∧
    keyD ((applyPuts NewSkiplistMmap
        [([97], 5, 1), ([98], 6, 2)]).getD NewSkiplistMmap) 3 = [98] ∧
    ltKey [97] [98] ∧
    ((IterSeekForPrev ((applyPuts NewSkiplistMmap
          [([97], 5, 1), ([98], 6, 2)]).getD NewSkiplistMmap) ⟨none⟩ [97]).bind
        (fun it => (IterNext ((applyPuts NewSkiplistMmap
          [([97], 5, 1), ([98], 6, 2)]).getD NewSkiplistMmap) it).map
          (IterKey ((applyPuts NewSkiplistMmap
            [([97], 5, 1), ([98], 6, 2)]).getD NewSkiplistMmap)))) =
      some (some [98]) := by
  decide

/-- Claim C5: `randomHeight` always draws a height in `[1, maxHeight]`, and
after any sequence of `Put`s the list height stays in `[1, maxHeight]` and
dominates the tower height of every reachable node. -/
theorem C5 (draws : Nat → Nat) (ps : List (List Nat × Nat × Nat))
    (hok : ∀ p ∈ ps, 1 ≤ p.2.2 ∧ p.2.2 ≤ maxHeight) :
    1 ≤ randomHeight draws ∧ randomHeight draws ≤ maxHeight ∧
    ∃ s2, applyPuts NewSkiplistMmap ps = some s2 ∧
      1 ≤ s2.height ∧ s2.height ≤ maxHeight ∧
      ∀ o ∈ baseChain s2, heightD s2 o ≤ s2.height := by
  obtain ⟨hr1, hr2⟩ := randomHeightAux_bounds draws maxHeight 1 (Nat.le_refl 1)
    (by norm_num [maxHeight])
  obtain ⟨s2, happ, hwf2, -, -, -⟩ := applyPuts_spec ps NewSkiplistMmap WF_new hok
  obtain ⟨-, -, -, -, h5, h6, -⟩ := id hwf2
  exact ⟨hr1, hr2, s2, happ, h5, h6,
    fun o ho => (mem_baseChain_height hwf2 ho).2.1⟩

/-- Claim C6: `Empty()` is true exactly when no non-head node exists (the
node store holds only the head); it is true on a fresh list and false after
any sequence of `Put`s beginning with at least one `Put`. -/
theorem C6 {s : SkiplistMmap} (hwf : WF s) (k : List Nat) (v h : Nat)
    (ps : List (List Nat × Nat × Nat)) (hh1 : 1 ≤ h) (hhm : h ≤ maxHeight)
    (hok : ∀ p ∈ ps, 1 ≤ p.2.2 ∧ p.2.2 ≤ maxHeight) :
    (Empty s = some true ↔ s.nodes.length = 1) ∧
    Empty NewSkiplistMmap = some true ∧
    ∃ s2, applyPuts NewSkiplistMmap ((k, v, h) :: ps) = some s2 ∧
      Empty s2 = some false := by
  refine ⟨?_, by decide, ?_⟩
  · rw [Empty_iff hwf]
    constructor
    · intro hEq
      exact of_decide_eq_true (Option.some.inj hEq)
    · intro h1
      rw [h1]
      rfl
  · have hnew : ∀ o ∈ baseChain NewSkiplistMmap, keyD NewSkiplistMmap o ≠ k := by
      intro o ho
      rw [show baseChain NewSkiplistMmap = [] from rfl] at ho
      cases ho
    have hput : Put NewSkiplistMmap k v h =
        some (linkState NewSkiplistMmap k v h h) := Put_insert WF_new hnew hhm
    have hwf1 : WF (linkState NewSkiplistMmap k v h h) :=
      WF_insert WF_new hnew hh1 hhm
    obtain ⟨hlen1, -⟩ := insert_views WF_new k v h hhm
    obtain ⟨s2, happ2, hwf2, -, -, hlen2⟩ :=
      applyPuts_spec ps (linkState NewSkiplistMmap k v h h) hwf1 hok
    refine ⟨s2, ?_, ?_⟩
    · simp only [applyPuts, hput]
      exact happ2
    · have hN : NewSkiplistMmap.nodes.length = 1 := rfl
      rw [Empty_iff hwf2]
      congr 1
      exact decide_eq_false (by omega)

/-- Claim C7: `zeroOut(data, offset)` with `offset < len(data)` zeroes every
byte at index `≥ offset` and leaves every byte at index `< offset`
unchanged. -/
theorem C7 {data : List Nat} {offset : Nat} (hoff : offset < data.length) :
    ∃ out, zeroOut data offset = some out ∧ out.length = data.length ∧
      (∀ i, i < offset → out.getD i 0 = data.getD i 0) ∧
      (∀ i, offset ≤ i → i < data.length → out.getD i 0 = 0) := by
  refine ⟨data.take offset ++ List.replicate (data.length - offset) 0,
    zeroOut_spec hoff, ?_, ?_, ?_⟩
  · simp
    omega
  · intro i hi
    have hlt : i < (data.take offset).length := by simp; omega
    rw [List.getD_eq_getElem?_getD, List.getElem?_append_left hlt,
      List.getElem?_take_of_lt hi, ← List.getD_eq_getElem?_getD]
  · intro i h1 h2
    rw [List.getD_eq_getElem?_getD,
      List.getElem?_append_right (by simp; omega),
      show (data.take offset).length = offset from by simp; omega,
      List.getElem?_replicate_of_lt (by omega)]
    rfl

/-- Claim C8: the empty key is an ordinary key smaller than every non-empty
key: `Put("", v)` succeeds, `Get("")` then returns `v`, `SeekToFirst`
positions the iterator at the empty-key node — an offset `≥ 2`, distinct
from the head sentinel at offset 1, although the head carries the empty key
too. -/
theorem C8 {s : SkiplistMmap} (hwf : WF s) (v h : Nat) (hh1 : 1 ≤ h)
    (hhm : h ≤ maxHeight) :
    (∀ k : List Nat, k ≠ [] → ltKey [] k) ∧
    keyD s 1 = [] ∧
    ∃ s2 o, Put s [] v h = some s2 ∧ WF s2 ∧ Get s2 [] = some v ∧
      2 ≤ o ∧ IterSeekToFirst s2 ⟨none⟩ = ⟨some o⟩ ∧ keyD s2 o = [] ∧
      valueD s2 o = v := by
  have hltnil : ∀ k : List Nat, k ≠ [] → ltKey [] k := by
    intro k hk
    cases k with
    | nil => exact absurd rfl hk
    | cons a l => rfl
  obtain ⟨s2, hput, hwf2, hlook, -, -⟩ := Put_spec hwf [] v h hh1 hhm
  have hlookv : lookupA (model s2) [] = some v := by
    rw [hlook []]
    exact if_pos rfl
  have hsome : (lookupA (model s2) []).isSome = true := by rw [hlookv]; rfl
  obtain ⟨p, hp, hpk⟩ := (lookupA_isSome_iff (model s2) []).mp hsome
  obtain ⟨o, ho, rfl⟩ := List.mem_map.mp hp
  have hko : keyD s2 o = [] := hpk
  have hhead : (baseChain s2).head? = some o := by
    cases hbc : baseChain s2 with
    | nil =>
      rw [hbc] at ho
      cases ho
    | cons f rest =>
      rw [hbc] at ho
      rcases List.mem_cons.mp ho with rfl | hor
      · rfl
      · exfalso
        have hpw := baseChain_pairwise hwf2
        rw [hbc] at hpw
        have hlt := (List.pairwise_cons.mp hpw).1 o hor
        rw [hko] at hlt
        exact not_ltKey_nil _ hlt
  refine ⟨hltnil, ?_, s2, o, hput, hwf2, ?_,
    (mem_baseChain_bounds hwf2 ho).1, ?_, hko, ?_⟩
  · obtain ⟨-, h2, -⟩ := id hwf
    exact h2
  · rw [Get_spec hwf2 [], hlookv]
    rfl
  · unfold IterSeekToFirst
    rw [head_tower0 hwf2, offOpt_headD hwf2 (fun u hu => hu), hhead]
  · have hfound : lookupA (model s2) [] = some (valueD s2 o) := by
      unfold model
      exact lookupA_map_found ho hko
        (fun u hu hku => key_unique hwf2 hu ho (hku.trans hko.symm))
    rw [hfound] at hlookv
    exact Option.some.inj hlookv

/-- Claim C9 (code bug): the store `Put` performs on its value-overwrite
path is the plain assignment of source line 242 (`prev[i].value = uid`, the
atomic `setValue` being commented out), not the single atomic 64-bit store
the claim and the spec describe — while `Get` reads the value word with an
atomic load. -/
theorem C9 {s : SkiplistMmap} (hwf : WF s) {key : List Nat} {t : Nat}
    (ht : t ∈ baseChain s) (hkey : keyD s t = key) :
    putValueStoreKind s key = some StoreKind.plainStore := by
  obtain ⟨-, -, -, -, hge1, hle1, -⟩ := id hwf
  unfold putValueStoreKind
  rw [descend_mem hwf ht hkey s.height hge1 hle1 1 (Or.inl rfl) (Nat.le_refl _)]

/-- Claim C10: `Next` and `Prev` called on an invalid iterator fail the
`Valid()` assertion (modelled as `none`), while `Seek`, `SeekForPrev`,
`SeekToFirst` and `SeekToLast` are legal on an invalid iterator: they
succeed on a well-formed list and ignore the previous position entirely. -/
theorem C10 {s : SkiplistMmap} (hwf : WF s) {it : IteratorMmap}
    (hinv : IterValid it = false) (target : List Nat) :
    IterNext s it = none ∧ IterPrev s it = none ∧
    (IterSeek s it target).isSome = true ∧
    (IterSeekForPrev s it target).isSome = true ∧
    (IterSeekToLast s it).isSome = true ∧
    ∀ it2 : IteratorMmap,
      IterSeek s it2 target = IterSeek s it target ∧
      IterSeekForPrev s it2 target = IterSeekForPrev s it target ∧
      IterSeekToFirst s it2 = IterSeekToFirst s it ∧
      IterSeekToLast s it2 = IterSeekToLast s it := by
  have hn : it.n = none := by
    unfold IterValid at hinv
    cases hit : it.n with
    | none => rfl
    | some o =>
      rw [hit] at hinv
      simp at hinv
  refine ⟨?_, ?_, ?_, ?_, ?_, fun it2 => ⟨rfl, rfl, rfl, rfl⟩⟩
  · unfold IterNext
    rw [hn]
  · unfold IterPrev
    rw [hn]
  · unfold IterSeek
    rw [findNear_spec hwf target false true]
    rfl
  · unfold IterSeekForPrev
    rw [findNear_spec hwf target true true]
    rfl
  · unfold IterSeekToLast
    rw [findLast_spec hwf]
    rfl

theorem C1_witness :
    (∀ p ∈ ([([97], 5, 1), ([97], 7, 2), ([98], 6, 1)] :
        List (List Nat × Nat × Nat)), 1 ≤ p.2.2 ∧ p.2.2 ≤ maxHeight) ∧
    (∃ s2, applyPuts NewSkiplistMmap
        [([97], 5, 1), ([97], 7, 2), ([98], 6, 1)] = some s2 ∧
      ∀ k, Get s2 k =
        some ((lastPutVal [([97], 5, 1), ([97], 7, 2), ([98], 6, 1)] k).getD 0)) :=
  ⟨by decide, C1 [([97], 5, 1), ([97], 7, 2), ([98], 6, 1)] (by decide)⟩

theorem C2_witness :
    (∀ p ∈ ([([97], 5, 1), ([97], 7, 2), ([98], 6, 1)] :
        List (List Nat × Nat × Nat)), 1 ≤ p.2.2 ∧ p.2.2 ≤ maxHeight) ∧
    (∃ s2 tr, applyPuts NewSkiplistMmap
        [([97], 5, 1), ([97], 7, 2), ([98], 6, 1)] = some s2 ∧
      iterTrace s2 = some tr ∧ tr.Pairwise ltKey ∧ tr.Nodup ∧
      ∀ k, k ∈ tr ↔
        (lastPutVal [([97], 5, 1), ([97], 7, 2), ([98], 6, 1)] k).isSome = true) :=
  ⟨by decide, C2 [([97], 5, 1), ([97], 7, 2), ([98], 6, 1)] (by decide)⟩

theorem C3_witness :
    WF exampleList ∧ 2 ∈ baseChain exampleList ∧ keyD exampleList 2 = [97] ∧
    (Put exampleList [97] 9 4 = some (setValue exampleList 2 9) ∧
      MemSize (setValue exampleList 2 9) = MemSize exampleList ∧
      (setValue exampleList 2 9).nodes.length = exampleList.nodes.length ∧
      (setValue exampleList 2 9).height = exampleList.height ∧
      (∀ o, keyD (setValue exampleList 2 9) o = keyD exampleList o) ∧
      (∀ o, heightD (setValue exampleList 2 9) o = heightD exampleList o) ∧
      (∀ o l, towerD (setValue exampleList 2 9) o l = towerD exampleList o l) ∧
      (∀ o, o ≠ 2 → valueD (setValue exampleList 2 9) o = valueD exampleList o) ∧
      valueD (setValue exampleList 2 9) 2 = 9 ∧
      Get (setValue exampleList 2 9) [97] = some 9) :=
  ⟨by decide, by decide, by decide,
    C3 (by decide : WF exampleList)
      (by decide : (2 : Nat) ∈ baseChain exampleList)
      (by decide : keyD exampleList 2 = [97]) 9 4⟩

theorem C4_witness :
    WF exampleList ∧ 2 ∈ baseChain exampleList ∧ keyD exampleList 2 = [97] ∧
    (∃ B, sufKeys exampleList [97] = 2 :: B ∧
      IterSeekForPrev exampleList ⟨none⟩ [97] = some ⟨some 2⟩ ∧
      IterNext exampleList ⟨some 2⟩ = some ⟨B.head?⟩ ∧
      (∀ o ∈ B, ltKey [97] (keyD exampleList o)) ∧
      IterSeek exampleList ⟨none⟩ [97] = some ⟨some 2⟩ ∧
      IterPrev exampleList ⟨some 2⟩ = some ⟨lastOpt (preKeys exampleList [97])⟩ ∧
      (∀ o ∈ preKeys exampleList [97], ltKey (keyD exampleList o) [97])) :=
  ⟨by decide, by decide, by decide,
    C4 (by decide : WF exampleList)
      (by decide : (2 : Nat) ∈ baseChain exampleList)
      (by decide : keyD exampleList 2 = [97]) ⟨none⟩⟩

theorem C5_witness :
    (∀ p ∈ ([([97], 5, 1)] : List (List Nat × Nat × Nat)),
      1 ≤ p.2.2 ∧ p.2.2 ≤ maxHeight) ∧
    (1 ≤ randomHeight (fun _ => 0) ∧ randomHeight (fun _ => 0) ≤ maxHeight ∧
      ∃ s2, applyPuts NewSkiplistMmap [([97], 5, 1)] = some s2 ∧
        1 ≤ s2.height ∧ s2.height ≤ maxHeight ∧
        ∀ o ∈ baseChain s2, heightD s2 o ≤ s2.height) :=
  ⟨by decide, C5 (fun _ => 0) [([97], 5, 1)] (by decide)⟩

theorem C6_witness :
    WF NewSkiplistMmap ∧ (1 : Nat) ≤ 1 ∧ 1 ≤ maxHeight ∧
    (∀ p ∈ ([] : List (List Nat × Nat × Nat)),
      1 ≤ p.2.2 ∧ p.2.2 ≤ maxHeight) ∧
    ((Empty NewSkiplistMmap = some true ↔ NewSkiplistMmap.nodes.length = 1) ∧
      Empty NewSkiplistMmap = some true ∧
      ∃ s2, applyPuts NewSkiplistMmap [([97], 5, 1)] = some s2 ∧
        Empty s2 = some false) :=
  ⟨by decide, by decide, by decide, by decide,
    C6 (by decide : WF NewSkiplistMmap) [97] 5 1 [] (by decide) (by decide)
      (by decide)⟩

theorem C7_witness :
    (1 : Nat) < ([7, 8, 9] : List Nat).length ∧
    (∃ out, zeroOut [7, 8, 9] 1 = some out ∧
      out.length = ([7, 8, 9] : List Nat).length ∧
      (∀ i, i < 1 → out.getD i 0 = ([7, 8, 9] : List Nat).getD i 0) ∧
      (∀ i, 1 ≤ i → i < ([7, 8, 9] : List Nat).length → out.getD i 0 = 0)) :=
  ⟨by decide, C7 (by decide : (1 : Nat) < ([7, 8, 9] : List Nat).length)⟩

theorem C8_witness :
    WF NewSkiplistMmap ∧ (1 : Nat) ≤ 1 ∧ 1 ≤ maxHeight ∧
    ((∀ k : List Nat, k ≠ [] → ltKey [] k) ∧
      keyD NewSkiplistMmap 1 = [] ∧
      ∃ s2 o, Put NewSkiplistMmap [] 5 1 = some s2 ∧ WF s2 ∧
        Get s2 [] = some 5 ∧ 2 ≤ o ∧ IterSeekToFirst s2 ⟨none⟩ = ⟨some o⟩ ∧
        keyD s2 o = [] ∧ valueD s2 o = 5) :=
  ⟨by decide, by decide, by decide,
    C8 (by decide : WF NewSkiplistMmap) 5 1 (by decide) (by decide)⟩

theorem C9_witness :
    WF exampleList ∧ 2 ∈ baseChain exampleList ∧ keyD exampleList 2 = [97] ∧
    putValueStoreKind exampleList [97] = some StoreKind.plainStore :=
  ⟨by decide, by decide, by decide,
    C9 (by decide : WF exampleList)
      (by decide : (2 : Nat) ∈ baseChain exampleList)
      (by decide : keyD exampleList 2 = [97])⟩

theorem C10_witness :
    WF NewSkiplistMmap ∧ IterValid ⟨none⟩ = false ∧
    (IterNext NewSkiplistMmap ⟨none⟩ = none ∧
      IterPrev NewSkiplistMmap ⟨none⟩ = none ∧
      (IterSeek NewSkiplistMmap ⟨none⟩ [97]).isSome = true ∧
      (IterSeekForPrev NewSkiplistMmap ⟨none⟩ [97]).isSome = true ∧
      (IterSeekToLast NewSkiplistMmap ⟨none⟩).isSome = true ∧
      ∀ it2 : IteratorMmap,
        IterSeek NewSkiplistMmap it2 [97] = IterSeek NewSkiplistMmap ⟨none⟩ [97] ∧
        IterSeekForPrev NewSkiplistMmap it2 [97] =
          IterSeekForPrev NewSkiplistMmap ⟨none⟩ [97] ∧
        IterSeekToFirst NewSkiplistMmap it2 = IterSeekToFirst NewSkiplistMmap ⟨none⟩ ∧
        IterSeekToLast NewSkiplistMmap it2 = IterSeekToLast NewSkiplistMmap ⟨none⟩) :=
  ⟨by decide, by decide,
    C10 (by decide : WF NewSkiplistMmap)
      (by decide : IterValid ⟨none⟩ = false) [97]⟩

end Skl
